import Mathlib

/-!
Verification of the rclone.conf Config Store and the configuration routes of
the cloud-to-disk-backup add-on (`rootfs/usr/local/bin/web/app.py`), shallowly
embedded over `List Char`.

Modelling conventions:
* Python strings are `List Char` (`Str`). File contents are the raw bytes of
  the file as characters.
* Python text-mode reading uses universal newlines: `\r\n` and lone `\r` are
  translated to `\n` before line iteration, so `pyLines` splits on all three
  separators. Writing on Linux is the identity translation.
* `str.strip()` is modelled over the six ASCII whitespace characters
  (space, tab, `\n`, `\r`, vertical tab, form feed); exotic Unicode
  whitespace is treated as non-space.
* `OrderedDict` (and Python 3.7+ `dict`) is an association list with
  insertion order; assignment to an existing key keeps its position.
* The filesystem state of the config file is `Option Str`
  (`none` = file absent, giving `FileNotFoundError` on open).
-/

set_option maxHeartbeats 1000000
set_option synthInstance.maxHeartbeats 1000000

/-- Strings are modelled as lists of characters. -/
abbrev Str := List Char

/-- Convert a Lean string literal into the `List Char` model. -/
def lit (s : String) : Str := s.toList

/-- The six ASCII whitespace characters stripped by Python `str.strip()`. -/
def isPySpace (c : Char) : Bool :=
  c = ' ' || c = '\t' || c = '\n' || c = '\r' || c = '\x0b' || c = '\x0c'

/-- Remove leading characters satisfying `p` (left part of `str.strip`). -/
def lstripW (p : Char → Bool) (l : Str) : Str := l.dropWhile p

/-- Remove trailing characters satisfying `p` (right part of `str.strip`,
and `str.rstrip`). -/
def rstripW (p : Char → Bool) (l : Str) : Str := (l.reverse.dropWhile p).reverse

/-- Python `line.strip()` with no arguments. -/
def pyStrip (l : Str) : Str := rstripW isPySpace (lstripW isPySpace l)

/-- Python `line.rstrip('\n\r')`. -/
def rstripRN (l : Str) : Str := rstripW (fun c => c = '\n' || c = '\r') l

/-- Python `line.partition('=')` restricted to the two parts around the first
`'='`; when no `'='` occurs the pair is `(l, [])`, and every use in the code
is guarded by `'=' in line`. -/
def pyPartitionEq : Str → Str × Str
  | [] => ([], [])
  | c :: rest =>
    if c = '=' then ([], rest)
    else
      let p := pyPartitionEq rest
      (c :: p.1, p.2)

/-- Matching of `re.match(r'^\[(.+)\]$', s)`: the string must be `[` followed
by a nonempty newline-free interior followed by `]`; the greedy group is
everything between the first character and the final `]`. -/
def headerName : Str → Option Str
  | [] => none
  | c :: rest =>
    if c = '[' && rest.getLast? = some ']' && !rest.dropLast.isEmpty
        && !rest.dropLast.contains '\n' then
      some rest.dropLast
    else none

/-- Split file content at the universal-newline separators `\r\n`, `\r`, `\n`
(Python text-mode reading translates all three to `\n`).  The result is the
list of separator-free pieces; it always has at least one element. -/
def splitU : Str → List Str
  | [] => [[]]
  | [c] =>
    if c = '\r' || c = '\n' then [[], []]
    else [[c]]
  | c :: c2 :: rest =>
    if c = '\r' then
      if c2 = '\n' then [] :: splitU rest
      else [] :: splitU (c2 :: rest)
    else if c = '\n' then [] :: splitU (c2 :: rest)
    else
      match splitU (c2 :: rest) with
      | [] => [[c]]
      | l :: ls => (c :: l) :: ls

/-- The sequence of lines produced by `for line in f` (before `rstrip`): the
pieces of `splitU`, except that a trailing empty piece (file ending in a
newline, or empty file) yields no extra line. -/
def pyLines (t : Str) : List Str :=
  let ls := splitU t
  if ls.getLast? = some [] then ls.dropLast else ls

/-- A section body: ordered mapping key → value (`OrderedDict`). -/
abbrev SecMap := List (Str × Str)

/-- A parsed document: ordered mapping section name → section body. -/
abbrev Doc := List (Str × SecMap)

/-- Python ordered-dict assignment `m[k] = v`: replace in place if the key is
present (keeping its position), else append at the end. -/
def odSet {α : Type} : List (Str × α) → Str → α → List (Str × α)
  | [], k, v => [(k, v)]
  | (k', v') :: rest, k, v =>
    if k' = k then (k', v) :: rest else (k', v') :: odSet rest k v

/-- Ordered-dict lookup `m[k]` / `k in m`. -/
def odGet {α : Type} : List (Str × α) → Str → Option α
  | [], _ => none
  | (k', v') :: rest, k => if k' = k then some v' else odGet rest k

/-- Python `del m[k]`: remove the (unique) entry with key `k`. -/
def odDel {α : Type} : List (Str × α) → Str → List (Str × α)
  | [], _ => []
  | (k', v') :: rest, k => if k' = k then rest else (k', v') :: odDel rest k

/-- `sections[current][key] = value`: in-place update of the section map
stored under name `n`. -/
def odSetSec (d : Doc) (n k v : Str) : Doc :=
  d.map (fun s => if s.1 = n then (s.1, odSet s.2 k v) else s)

/-- In-place transformation of the section stored under name `n`. -/
def odMapAt (d : Doc) (n : Str) (f : SecMap → SecMap) : Doc :=
  d.map (fun s => if s.1 = n then (s.1, f s.2) else s)

/-- One iteration of the `for line in f` loop of `read_rclone_sections`
(app.py lines 80-88), acting on the state `(sections, current)`. -/
def parseLine (st : Doc × Option Str) (raw : Str) : Doc × Option Str :=
  let line := rstripRN raw
  match headerName (pyStrip line) with
  | some name => (odSet st.1 name [], some name)
  | none =>
    match st.2 with
    | some cur =>
      if '=' ∈ line then
        let p := pyPartitionEq line
        (odSetSec st.1 cur (pyStrip p.1) (pyStrip p.2), some cur)
      else st
    | none => st

/-- The text-processing core of `read_rclone_sections`: fold the line loop
over the lines of the file content. -/
def parseText (t : Str) : Doc :=
  ((pyLines t).foldl parseLine ([], none)).1

/-- `read_rclone_sections` (app.py lines 74-91): a missing file
(`FileNotFoundError`) yields the empty document. -/
def read_rclone_sections : Option Str → Doc
  | none => []
  | some t => parseText t

/-- One `key = value` output line of `write_rclone_sections`
(`f'{key} = {value}\n'`). -/
def kvLine (k v : Str) : Str := k ++ ' ' :: '=' :: ' ' :: (v ++ ['\n'])

/-- The text written for one section: `[name]` then its key lines. -/
def sectionText (n : Str) (m : SecMap) : Str :=
  '[' :: (n ++ ']' :: '\n' :: (m.map (fun kv => kvLine kv.1 kv.2)).flatten)

/-- `write_rclone_sections` (app.py lines 94-104): each section in document
order, with a `'\n'` written before every section but the first. -/
def write_rclone_sections : Doc → Str
  | [] => []
  | [s] => sectionText s.1 s.2
  | s :: s' :: rest => sectionText s.1 s.2 ++ '\n' :: write_rclone_sections (s' :: rest)

/-- The raw (pre-`rstrip`) line list that `write_rclone_sections` output
splits into: header line, key lines, and one empty separator line before each
subsequent section. -/
def docLines : Doc → List Str
  | [] => []
  | [s] => ('[' :: (s.1 ++ [']'])) :: s.2.map (fun kv => kv.1 ++ ' ' :: '=' :: ' ' :: kv.2)
  | s :: s' :: rest =>
    ('[' :: (s.1 ++ [']'])) :: s.2.map (fun kv => kv.1 ++ ' ' :: '=' :: ' ' :: kv.2)
      ++ [] :: docLines (s' :: rest)

/-- A name as produced by the header branch of the parser: nonempty and free
of line separators. -/
def ValidName (n : Str) : Prop := n ≠ [] ∧ '\n' ∉ n ∧ '\r' ∉ n

/-- A key/value pair as produced by the kv branch of the parser: both sides
strip-fixed and separator-free, no `'='` in the key, and not of a shape whose
serialized line would re-parse as a section header. -/
def ValidKV (k v : Str) : Prop :=
  pyStrip k = k ∧ pyStrip v = v ∧ '=' ∉ k ∧ '\n' ∉ k ∧ '\r' ∉ k ∧ '\n' ∉ v ∧ '\r' ∉ v ∧
    ¬(k.head? = some '[' ∧ v.getLast? = some ']')

/-- A section body the parser can produce. -/
def ValidSec (m : SecMap) : Prop :=
  (m.map Prod.fst).Nodup ∧ ∀ kv ∈ m, ValidKV kv.1 kv.2

/-- A document the parser can produce. -/
def ValidDoc (d : Doc) : Prop :=
  (d.map Prod.fst).Nodup ∧ ∀ s ∈ d, ValidName s.1 ∧ ValidSec s.2

instance (n : Str) : Decidable (ValidName n) := by unfold ValidName; infer_instance

instance (k v : Str) : Decidable (ValidKV k v) := by unfold ValidKV; infer_instance

instance (m : SecMap) : Decidable (ValidSec m) := by unfold ValidSec; infer_instance

instance (d : Doc) : Decidable (ValidDoc d) := by unfold ValidDoc; infer_instance

/-- Modelled from the spec words of §4.1 Serialize and §6 (also the claim of
C7): each section in document order as `[name]` followed by its keys in
insertion order as `key = value`, with a single blank line between
consecutive sections and no blank line after the last section. -/
def specLines (d : Doc) : List Str :=
  List.intercalate [[]]
    (d.map (fun s => ('[' :: (s.1 ++ [']'])) :: s.2.map (fun kv => kv.1 ++ ' ' :: '=' :: ' ' :: kv.2)))

/-- The secret keys redacted by `api_get_remote_config` (app.py lines
393-396). -/
def secretKeys : List Str :=
  [lit ("token"), lit ("client_secret"), lit ("secret_access_key"), lit ("pass"),
    lit ("password"), lit ("app_key"), lit ("app_secret")]

/-- The `safe` dictionary built by `api_get_remote_config`: secret keys get
the literal `[REDACTED]`, other keys keep their value. -/
def redactSection (m : SecMap) : SecMap :=
  m.map (fun kv => if kv.1 ∈ secretKeys then (kv.1, lit ("[REDACTED]")) else kv)

/-- `GET /api/remotes/<name>/config` (app.py lines 386-399): `none` models
the 404 response. -/
def api_get_remote_config (conf : Option Str) (name : Str) : Option SecMap :=
  match odGet (read_rclone_sections conf) name with
  | none => none
  | some m => some (redactSection m)

/-- One attempt of `re.sub(r'(kw\s*=\s*).*', r'\1[REDACTED]', ...)` at the
start of `t`: `t` must begin with `kw`, then whitespace, then `'='`, then
whitespace (the group, greedy), then `.*` consumes to the next `'\n'` or the
end.  Returns the matched group and the unconsumed remainder.  Since no
whitespace character is `'='`, the greedy `\s*` followed by the literal `'='`
is equivalent to taking the maximal whitespace run. -/
def matchKw (kw : Str) (t : Str) : Option (Str × Str) :=
  if kw.isPrefixOf t then
    let t1 := t.drop kw.length
    let w1 := t1.takeWhile isPySpace
    match t1.dropWhile isPySpace with
    | '=' :: t3 =>
      let w2 := t3.takeWhile isPySpace
      let t4 := t3.dropWhile isPySpace
      some (kw ++ w1 ++ '=' :: w2, t4.dropWhile (fun c => !(c == '\n')))
    | _ => none
  else none

/-- Fuelled left-to-right scan of `re.sub`: at each position try `matchKw`;
on a match emit the group followed by `[REDACTED]` and continue after the
match, else keep the character.  The fuel only serves structural recursion
and is sufficient whenever it is at least the length of the text. -/
def reSubKwF (kw : Str) : Nat → Str → Str
  | 0, t => t
  | _ + 1, [] => []
  | fuel + 1, c :: t =>
    match matchKw kw (c :: t) with
    | some (g, rest) => g ++ lit ("[REDACTED]") ++ reSubKwF kw fuel rest
    | none => c :: reSubKwF kw fuel t

/-- `re.sub(r'(kw\s*=\s*).*', r'\1[REDACTED]', t)`. -/
def reSubKw (kw t : Str) : Str := reSubKwF kw t.length t

/-- `GET /api/rclone-config` (app.py lines 545-556): the whole-file view,
redacting the `token` lines and then the `client_secret` lines; a missing
file yields empty content. -/
def api_get_rclone_config : Option Str → Str
  | none => []
  | some content => reSubKw (lit ("client_secret")) (reSubKw (lit ("token")) content)

/-- No position of `t` matches the `kw\s*=\s*` pattern (so `re.sub` leaves
`t` unchanged). -/
def noKwMatch (kw t : Str) : Prop := ∀ i ≤ t.length, matchKw kw (t.drop i) = none

instance (kw t : Str) : Decidable (noKwMatch kw t) := by
  unfold noKwMatch; exact Nat.decidableBallLE _ _

/-- A JSON request body, as accessed by `data.get(key, default)`. -/
def rget (req : Str → Option Str) (k d : Str) : Str := (req k).getD d

/-- The remote-name check `re.match(r'^[a-zA-Z0-9_-]+$', name)`. -/
def nameOk (s : Str) : Bool :=
  !s.isEmpty && s.all (fun c => c.isAlpha || c.isDigit || c = '_' || c = '-')

/-- The `provider_map` literal of `api_create_remote` (app.py lines
417-424). -/
def provider_map : List (Str × Str) :=
  [(lit ("onedrive"), lit ("onedrive")), (lit ("gdrive"), lit ("drive")),
    (lit ("dropbox"), lit ("dropbox")), (lit ("s3"), lit ("s3")),
    (lit ("sftp"), lit ("sftp")), (lit ("webdav"), lit ("webdav"))]

/-- `provider_map.get(provider, provider)`. -/
def pmGet (p : Str) : Str := (odGet provider_map p).getD p

/-- Responses of `POST /api/remotes`. -/
inductive CreateResp
  | missingField
  | badName
  | conflict
  | discoveryFailed
  | created (rtype : Str)
deriving DecidableEq

/-- Helper for the S3/SFTP/WebDAV field loops: for each key, strip the
supplied value and store it if non-empty. -/
def copyFields (req : Str → Option Str) (keys : List Str) (params : SecMap) : SecMap :=
  keys.foldl
    (fun acc key =>
      let val := pyStrip (rget req key [])
      if val.isEmpty then acc else odSet acc key val)
    params

/-- `POST /api/remotes` (app.py lines 402-491).  The Microsoft Graph
discovery performed by `resolve_onedrive_drive_id` is external I/O and is
supplied as `oracle` (`Except.error` models the `ValueError` path, `ok`
carries `(drive_id, actual_type)`); it is consulted only when the provider is
`onedrive` and a token was supplied. -/
def api_create_remote (oracle : Except Unit (Str × Str)) (conf : Option Str)
    (req : Str → Option Str) : Option Str × CreateResp :=
  let name := pyStrip (rget req (lit ("name")) [])
  let provider := pyStrip (rget req (lit ("provider")) [])
  if name.isEmpty || provider.isEmpty then (conf, CreateResp.missingField)
  else if !nameOk name then (conf, CreateResp.badName)
  else
    let rclone_type := pmGet provider
    let sections := read_rclone_sections conf
    if (odGet sections name).isSome then (conf, CreateResp.conflict)
    else
      let params0 := odSet ([] : SecMap) (lit ("type")) rclone_type
      let token := pyStrip (rget req (lit ("token")) [])
      let params1 := if token.isEmpty then params0 else odSet params0 (lit ("token")) token
      let afterOneDrive : Except Unit SecMap :=
        if provider = lit ("onedrive") then
          let drive_type := rget req (lit ("drive_type")) (lit ("personal"))
          let params2 := odSet params1 (lit ("drive_type")) drive_type
          if token.isEmpty then Except.ok params2
          else
            match oracle with
            | Except.error _ => Except.error ()
            | Except.ok dr =>
              Except.ok (odSet (odSet params2 (lit ("drive_id")) dr.1) (lit ("drive_type")) dr.2)
        else Except.ok params1
      match afterOneDrive with
      | Except.error _ => (conf, CreateResp.discoveryFailed)
      | Except.ok paramsA =>
        let paramsB :=
          if provider = lit ("gdrive") then
            let rfi := pyStrip (rget req (lit ("root_folder_id")) [])
            if rfi.isEmpty then paramsA else odSet paramsA (lit ("root_folder_id")) rfi
          else paramsA
        let paramsC :=
          if provider = lit ("s3") then
            copyFields req
              [lit ("access_key_id"), lit ("secret_access_key"), lit ("region"),
                lit ("endpoint"), lit ("acl")]
              (odSet paramsB (lit ("provider")) (pyStrip (rget req (lit ("s3_provider")) (lit ("AWS")))))
          else paramsB
        let paramsD :=
          if provider = lit ("sftp") then
            copyFields req
              [lit ("host"), lit ("port"), lit ("user"), lit ("pass"), lit ("key_file")] paramsC
          else paramsC
        let paramsE :=
          if provider = lit ("webdav") then
            copyFields req [lit ("url"), lit ("vendor"), lit ("user"), lit ("pass")] paramsD
          else paramsD
        (some (write_rclone_sections (odSet sections name paramsE)), CreateResp.created rclone_type)

/-- Responses of `PUT /api/remotes/<name>`. -/
inductive UpdateResp
  | notFound
  | updated
deriving DecidableEq

/-- One supplied field of the update loop (app.py lines 503-508): non-empty
stripped values are set, empty values delete the key unless it is absent or
is `type`. -/
def updStep (m : SecMap) (kv : Str × Str) : SecMap :=
  let v := pyStrip kv.2
  if !v.isEmpty then odSet m kv.1 v
  else if (odGet m kv.1).isSome ∧ kv.1 ≠ lit ("type") then odDel m kv.1
  else m

/-- `PUT /api/remotes/<name>` (app.py lines 494-511).  The `config` object of
the request is an ordered list of supplied fields; the loop mutates
`sections[name]` in place, which is `odMapAt` with the folded step. -/
def api_update_remote (conf : Option Str) (name : Str) (updates : List (Str × Str)) :
    Option Str × UpdateResp :=
  let sections := read_rclone_sections conf
  if (odGet sections name).isNone then (conf, UpdateResp.notFound)
  else
    (some (write_rclone_sections (odMapAt sections name (fun m => updates.foldl updStep m))),
      UpdateResp.updated)

/-- A wall-clock instant as used by `datetime.now().strftime('%Y%m%d_%H%M%S')`. -/
structure DateTime6 where
  y : Nat
  mo : Nat
  d : Nat
  h : Nat
  mi : Nat
  s : Nat

/-- Zero-padded two-digit decimal field (`%m%d%H%M%S`). -/
def pad2 (n : Nat) : Str := [Nat.digitChar (n / 10 % 10), Nat.digitChar (n % 10)]

/-- Zero-padded four-digit decimal field (`%Y`). -/
def pad4 (n : Nat) : Str :=
  [Nat.digitChar (n / 1000 % 10), Nat.digitChar (n / 100 % 10),
    Nat.digitChar (n / 10 % 10), Nat.digitChar (n % 10)]

/-- `datetime.now().strftime('%Y%m%d_%H%M%S')`. -/
def fmtTs (t : DateTime6) : Str :=
  pad4 t.y ++ pad2 t.mo ++ pad2 t.d ++ '_' :: (pad2 t.h ++ pad2 t.mi ++ pad2 t.s)

/-- The configured config-file path (`ADDON_RCLONE_CONF` default). -/
def RCLONE_CONF : Str := lit ("/data/rclone.conf")

/-- The backup file name `f'{RCLONE_CONF}.bak.{ts}'`. -/
def bakName (ts : Str) : Str := RCLONE_CONF ++ lit (".bak.") ++ ts

/-- The filesystem state touched by the upload route: the config file and the
timestamped backup files (name, content). -/
structure UploadState where
  conf : Option Str
  backups : List (Str × Str)

/-- Responses of `POST /api/rclone-config`. -/
inductive UploadResp
  | emptyContent
  | saved
deriving DecidableEq

/-- `POST /api/rclone-config` (app.py lines 558-577): reject blank content;
otherwise, if the config file exists, copy its full content to a new
timestamped backup file, then overwrite the config file. -/
def api_upload_rclone_config (st : UploadState) (now : DateTime6) (content : Str) :
    UploadState × UploadResp :=
  if (pyStrip content).isEmpty then (st, UploadResp.emptyContent)
  else
    match st.conf with
    | some old =>
      ({ conf := some content, backups := st.backups ++ [(bakName (fmtTs now), old)] },
        UploadResp.saved)
    | none => ({ conf := some content, backups := st.backups }, UploadResp.saved)

theorem lstripW_nil (p : Char → Bool) : lstripW p [] = [] := rfl

theorem lstripW_cons_pos (p : Char → Bool) (c : Char) (l : Str) (h : p c = true) :
    lstripW p (c :: l) = lstripW p l := by
  simp [lstripW, List.dropWhile_cons, h]

theorem lstripW_cons_neg (p : Char → Bool) (c : Char) (l : Str) (h : p c = false) :
    lstripW p (c :: l) = c :: l := by
  simp [lstripW, List.dropWhile_cons, h]

theorem mem_lstripW (p : Char → Bool) (c : Char) (l : Str) (h : c ∈ lstripW p l) : c ∈ l := by
  induction l with
  | nil => simp [lstripW] at h
  | cons a t ih =>
    by_cases hp : p a
    · rw [lstripW_cons_pos p a t hp] at h
      exact List.mem_cons_of_mem a (ih h)
    · rwa [lstripW_cons_neg p a t (by simpa using hp)] at h

theorem lstripW_append_of_ne_nil (p : Char → Bool) (a b : Str) (h : lstripW p a ≠ []) :
    lstripW p (a ++ b) = lstripW p a ++ b := by
  induction a with
  | nil => simp [lstripW] at h
  | cons c t ih =>
    by_cases hp : p c
    · rw [List.cons_append, lstripW_cons_pos p c _ hp, lstripW_cons_pos p c t hp]
      exact ih (by rwa [lstripW_cons_pos p c t hp] at h)
    · rw [List.cons_append, lstripW_cons_neg p c _ (by simpa using hp),
        lstripW_cons_neg p c t (by simpa using hp), List.cons_append]

theorem lstripW_append_of_nil (p : Char → Bool) (a b : Str) (h : lstripW p a = []) :
    lstripW p (a ++ b) = lstripW p b := by
  induction a with
  | nil => rfl
  | cons c t ih =>
    by_cases hp : p c
    · rw [List.cons_append, lstripW_cons_pos p c _ hp]
      exact ih (by rwa [lstripW_cons_pos p c t hp] at h)
    · rw [lstripW_cons_neg p c t (by simpa using hp)] at h
      exact absurd h (by simp)

theorem head?_lstripW_not (p : Char → Bool) (c : Char) (l : Str)
    (h : (lstripW p l).head? = some c) : p c = false := by
  induction l with
  | nil => simp [lstripW] at h
  | cons a t ih =>
    by_cases hp : p a
    · exact ih (by rwa [lstripW_cons_pos p a t hp] at h)
    · rw [lstripW_cons_neg p a t (by simpa using hp)] at h
      simp only [List.head?_cons, Option.some.injEq] at h
      subst h; simpa using hp

theorem length_lstripW_le (p : Char → Bool) (l : Str) : (lstripW p l).length ≤ l.length := by
  induction l with
  | nil => simp [lstripW]
  | cons a t ih =>
    by_cases hp : p a
    · rw [lstripW_cons_pos p a t hp]
      exact Nat.le_trans ih (by simp)
    · rw [lstripW_cons_neg p a t (by simpa using hp)]

theorem lstripW_eq_self_of_length (p : Char → Bool) (l : Str)
    (h : (lstripW p l).length = l.length) : lstripW p l = l := by
  have hd := List.takeWhile_append_dropWhile (p := p) (l := l)
  have hlen : (l.takeWhile p).length + (l.dropWhile p).length = l.length := by
    rw [← List.length_append, hd]
  have hz : (l.takeWhile p).length = 0 := by
    have h' : (List.dropWhile p l).length = l.length := h
    omega
  have htw : l.takeWhile p = [] := List.eq_nil_of_length_eq_zero hz
  calc lstripW p l = l.takeWhile p ++ l.dropWhile p := by rw [htw]; rfl
  _ = l := hd

theorem lstripW_fixed_head_not (p : Char → Bool) (c : Char) (l : Str)
    (hfix : lstripW p l = l) (h : l.head? = some c) : p c = false := by
  exact head?_lstripW_not p c l (by rw [hfix]; exact h)

theorem lstripW_eq_self_of_head? (p : Char → Bool) (l : Str)
    (h : ∀ c, l.head? = some c → p c = false) : lstripW p l = l := by
  cases l with
  | nil => rfl
  | cons a t => exact lstripW_cons_neg p a t (h a rfl)

theorem getLast?_lstripW (p : Char → Bool) (l : Str) (h : lstripW p l ≠ []) :
    (lstripW p l).getLast? = l.getLast? := by
  conv_rhs => rw [← List.takeWhile_append_dropWhile (p := p) (l := l)]
  exact (List.getLast?_append_of_ne_nil _ h).symm

theorem rstripW_nil (p : Char → Bool) : rstripW p [] = [] := rfl

theorem rstripW_reverse_eq (p : Char → Bool) (l : Str) :
    rstripW p l = (lstripW p l.reverse).reverse := rfl

theorem mem_rstripW (p : Char → Bool) (c : Char) (l : Str) (h : c ∈ rstripW p l) : c ∈ l := by
  rw [rstripW_reverse_eq, List.mem_reverse] at h
  exact List.mem_reverse.mp (mem_lstripW p c l.reverse h)

theorem rstripW_decomp (p : Char → Bool) (l : Str) :
    l = rstripW p l ++ (l.reverse.takeWhile p).reverse := by
  conv_lhs => rw [← l.reverse_reverse,
    ← List.takeWhile_append_dropWhile (p := p) (l := l.reverse)]
  rw [List.reverse_append]
  rfl

theorem rstripW_ne_nil_iff (p : Char → Bool) (l : Str) :
    rstripW p l ≠ [] ↔ lstripW p l.reverse ≠ [] := by
  rw [rstripW_reverse_eq]
  simp

theorem rstripW_append_of_ne_nil (p : Char → Bool) (a b : Str) (h : rstripW p b ≠ []) :
    rstripW p (a ++ b) = a ++ rstripW p b := by
  rw [rstripW_reverse_eq, List.reverse_append,
    lstripW_append_of_ne_nil p b.reverse a.reverse ((rstripW_ne_nil_iff p b).mp h),
    List.reverse_append, List.reverse_reverse, ← rstripW_reverse_eq]

theorem rstripW_append_of_nil (p : Char → Bool) (a b : Str) (h : rstripW p b = []) :
    rstripW p (a ++ b) = rstripW p a := by
  have hb : lstripW p b.reverse = [] := by
    have := congrArg List.reverse h
    rwa [rstripW_reverse_eq, List.reverse_reverse, List.reverse_nil] at this
  rw [rstripW_reverse_eq, List.reverse_append, lstripW_append_of_nil p b.reverse a.reverse hb,
    ← rstripW_reverse_eq]

theorem rstripW_concat_pos (p : Char → Bool) (c : Char) (l : Str) (h : p c = true) :
    rstripW p (l ++ [c]) = rstripW p l := by
  apply rstripW_append_of_nil
  rw [rstripW_reverse_eq]
  simp [lstripW, List.dropWhile_cons, h]

theorem rstripW_singleton_neg (p : Char → Bool) (c : Char) (h : p c = false) :
    rstripW p [c] = [c] := by
  rw [rstripW_reverse_eq]
  simp [lstripW, List.dropWhile_cons, h]

theorem getLast?_rstripW_not (p : Char → Bool) (c : Char) (l : Str)
    (h : (rstripW p l).getLast? = some c) : p c = false := by
  rw [rstripW_reverse_eq, List.getLast?_reverse] at h
  exact head?_lstripW_not p c l.reverse h

theorem head?_rstripW (p : Char → Bool) (l : Str) (h : rstripW p l ≠ []) :
    (rstripW p l).head? = l.head? := by
  conv_rhs => rw [rstripW_decomp p l]
  rw [List.head?_append_of_ne_nil _ h]

theorem rstripW_eq_self_of_getLast? (p : Char → Bool) (l : Str)
    (h : ∀ c, l.getLast? = some c → p c = false) : rstripW p l = l := by
  rw [rstripW_reverse_eq, lstripW_eq_self_of_head?, List.reverse_reverse]
  intro c hc
  exact h c (by rwa [List.head?_reverse] at hc)

theorem length_rstripW_le (p : Char → Bool) (l : Str) : (rstripW p l).length ≤ l.length := by
  rw [rstripW_reverse_eq, List.length_reverse]
  calc (lstripW p l.reverse).length ≤ l.reverse.length := length_lstripW_le p l.reverse
  _ = l.length := List.length_reverse l

theorem rstripW_fixed_getLast_not (p : Char → Bool) (c : Char) (l : Str)
    (hfix : rstripW p l = l) (h : l.getLast? = some c) : p c = false :=
  getLast?_rstripW_not p c l (by rw [hfix]; exact h)

theorem pyStrip_fixed_lstripW (l : Str) (h : pyStrip l = l) : lstripW isPySpace l = l := by
  apply lstripW_eq_self_of_length
  have h1 : l.length ≤ (lstripW isPySpace l).length := by
    calc l.length = (pyStrip l).length := by rw [h]
    _ ≤ (lstripW isPySpace l).length := length_rstripW_le isPySpace _
  exact Nat.le_antisymm (length_lstripW_le isPySpace l) h1

theorem pyStrip_fixed_rstripW (l : Str) (h : pyStrip l = l) : rstripW isPySpace l = l := by
  have h1 := pyStrip_fixed_lstripW l h
  unfold pyStrip at h
  rwa [h1] at h

theorem pyStrip_head?_not (l : Str) (c : Char) (h : (pyStrip l).head? = some c) :
    isPySpace c = false := by
  unfold pyStrip at h
  have hne : rstripW isPySpace (lstripW isPySpace l) ≠ [] := by
    intro hnil; rw [hnil] at h; simp at h
  rw [head?_rstripW _ _ hne] at h
  exact head?_lstripW_not _ _ _ h

theorem pyStrip_getLast?_not (l : Str) (c : Char) (h : (pyStrip l).getLast? = some c) :
    isPySpace c = false :=
  getLast?_rstripW_not _ _ _ h

theorem pyStrip_idem (l : Str) : pyStrip (pyStrip l) = pyStrip l := by
  have h1 : lstripW isPySpace (pyStrip l) = pyStrip l :=
    lstripW_eq_self_of_head? _ _ (fun c hc => pyStrip_head?_not l c hc)
  have h2 : rstripW isPySpace (pyStrip l) = pyStrip l :=
    rstripW_eq_self_of_getLast? _ _ (fun c hc => pyStrip_getLast?_not l c hc)
  show rstripW isPySpace (lstripW isPySpace (pyStrip l)) = pyStrip l
  rw [h1, h2]

theorem mem_pyStrip (l : Str) (c : Char) (h : c ∈ pyStrip l) : c ∈ l :=
  mem_lstripW _ _ _ (mem_rstripW _ _ _ h)

theorem pyStrip_ne_nil_lstrip (l : Str) (h : pyStrip l ≠ []) : lstripW isPySpace l ≠ [] := by
  intro hnil
  apply h
  unfold pyStrip
  rw [hnil]
  rfl

theorem pyStrip_append_cons (c : Char) (hc : isPySpace c = false) (a b : Str) :
    pyStrip (a ++ c :: b) = lstripW isPySpace a ++ c :: rstripW isPySpace b := by
  have hl : lstripW isPySpace (a ++ c :: b) = lstripW isPySpace a ++ c :: b := by
    by_cases ha : lstripW isPySpace a = []
    · rw [lstripW_append_of_nil _ _ _ ha, lstripW_cons_neg _ _ _ hc, ha, List.nil_append]
    · exact lstripW_append_of_ne_nil _ _ _ ha
  unfold pyStrip
  rw [hl]
  by_cases hb : rstripW isPySpace b = []
  · have : rstripW isPySpace (lstripW isPySpace a ++ c :: b)
        = rstripW isPySpace (lstripW isPySpace a ++ [c]) := by
      have : lstripW isPySpace a ++ c :: b = (lstripW isPySpace a ++ [c]) ++ b := by simp
      rw [this, rstripW_append_of_nil _ _ _ hb]
    rw [this, rstripW_append_of_ne_nil _ _ _ (by rw [rstripW_singleton_neg _ _ hc]; simp),
      rstripW_singleton_neg _ _ hc, hb]
  · have : lstripW isPySpace a ++ c :: b = (lstripW isPySpace a ++ [c]) ++ b := by simp
    rw [this, rstripW_append_of_ne_nil _ _ _ hb]
    simp

theorem pyStrip_append_space (k : Str) (h : pyStrip k = k) : pyStrip (k ++ [' ']) = k := by
  cases k with
  | nil => decide
  | cons c t =>
    unfold pyStrip
    have hhead : isPySpace c = false :=
      lstripW_fixed_head_not _ c _ (pyStrip_fixed_lstripW _ h) rfl
    rw [show (c :: t) ++ [' '] = c :: (t ++ [' ']) from rfl, lstripW_cons_neg _ _ _ hhead,
      ← show (c :: t) ++ [' '] = c :: (t ++ [' ']) from rfl,
      rstripW_concat_pos _ _ _ (by decide), pyStrip_fixed_rstripW _ h]

theorem pyStrip_cons_space (v : Str) (h : pyStrip v = v) : pyStrip (' ' :: v) = v := by
  unfold pyStrip
  rw [lstripW_cons_pos _ _ _ (by decide), pyStrip_fixed_lstripW _ h, pyStrip_fixed_rstripW _ h]

theorem odGet_odSet_self {α : Type} (m : List (Str × α)) (k : Str) (v : α) :
    odGet (odSet m k v) k = some v := by
  induction m with
  | nil => simp [odSet, odGet]
  | cons e rest ih =>
    obtain ⟨a, b⟩ := e
    by_cases h : a = k <;> simp [odSet, odGet, h, ih]

theorem odGet_odSet_ne {α : Type} (m : List (Str × α)) (k v k') (h : k' ≠ k) :
    odGet (odSet m k v) k' = odGet m k' := by
  induction m with
  | nil =>
    have h' : k ≠ k' := fun he => h he.symm
    simp [odSet, odGet, h']
  | cons e rest ih =>
    obtain ⟨a, b⟩ := e
    by_cases ha : a = k
    · subst ha
      have h' : a ≠ k' := fun he => h he.symm
      simp [odSet, odGet, h']
    · by_cases ha' : a = k'
      · subst ha'
        simp [odSet, odGet, ha]
      · simp [odSet, odGet, ha, ha', ih]

theorem odGet_none_iff {α : Type} (m : List (Str × α)) (k : Str) :
    odGet m k = none ↔ k ∉ m.map Prod.fst := by
  induction m with
  | nil => simp [odGet]
  | cons e rest ih =>
    obtain ⟨a, b⟩ := e
    by_cases h : a = k
    · subst h
      simp [odGet]
    · have h' : k ≠ a := fun he => h he.symm
      simp [odGet, h, h', ih]

theorem odGet_isSome_iff {α : Type} (m : List (Str × α)) (k : Str) :
    (odGet m k).isSome = true ↔ k ∈ m.map Prod.fst := by
  induction m with
  | nil => simp [odGet]
  | cons e rest ih =>
    obtain ⟨a, b⟩ := e
    by_cases h : a = k
    · subst h
      simp [odGet]
    · have h' : k ≠ a := fun he => h he.symm
      simp [odGet, h, h', ih]

theorem odSet_of_get_none {α : Type} (m : List (Str × α)) (k : Str) (v : α)
    (h : odGet m k = none) : odSet m k v = m ++ [(k, v)] := by
  induction m with
  | nil => rfl
  | cons e rest ih =>
    obtain ⟨a, b⟩ := e
    by_cases ha : a = k
    · subst ha
      simp [odGet] at h
    · simp only [odGet, ha, if_false] at h
      simp only [odSet, ha, if_false, List.cons_append, List.cons.injEq, true_and]
      exact ih h

theorem mem_odSet {α : Type} (m : List (Str × α)) (k : Str) (v : α) (x : Str × α)
    (h : x ∈ odSet m k v) : x = (k, v) ∨ x ∈ m := by
  induction m with
  | nil =>
    left
    simpa [odSet] using h
  | cons e rest ih =>
    obtain ⟨a, b⟩ := e
    by_cases ha : a = k
    · subst ha
      simp only [odSet, if_pos, List.mem_cons] at h
      rcases h with h | h
      · exact Or.inl h
      · exact Or.inr (List.mem_cons_of_mem _ h)
    · simp only [odSet, ha, if_false, List.mem_cons] at h
      rcases h with h | h
      · exact Or.inr (by simp [h])
      · rcases ih h with h' | h'
        · exact Or.inl h'
        · exact Or.inr (List.mem_cons_of_mem _ h')

theorem map_fst_odSet_some {α : Type} (m : List (Str × α)) (k : Str) (v : α)
    (h : (odGet m k).isSome = true) : (odSet m k v).map Prod.fst = m.map Prod.fst := by
  induction m with
  | nil => simp [odGet] at h
  | cons e rest ih =>
    obtain ⟨a, b⟩ := e
    by_cases ha : a = k
    · simp [odSet, ha]
    · simp only [odGet, ha, if_false] at h
      simp [odSet, ha, ih h]

theorem nodup_map_fst_odSet {α : Type} (m : List (Str × α)) (k : Str) (v : α)
    (h : (m.map Prod.fst).Nodup) : ((odSet m k v).map Prod.fst).Nodup := by
  cases hg : odGet m k with
  | none =>
    rw [odSet_of_get_none m k v hg]
    have hk : k ∉ m.map Prod.fst := (odGet_none_iff m k).mp hg
    simp only [List.map_append, List.map_cons, List.map_nil]
    rw [List.nodup_append]
    refine ⟨h, List.nodup_singleton k, ?_⟩
    intro a ha hak
    simp only [List.mem_singleton] at hak
    exact hk (hak ▸ ha)
  | some w =>
    rw [map_fst_odSet_some m k v (by simp [hg])]
    exact h

theorem odGet_mem {α : Type} (m : List (Str × α)) (k : Str) (v : α)
    (h : odGet m k = some v) : (k, v) ∈ m := by
  induction m with
  | nil => simp [odGet] at h
  | cons e rest ih =>
    obtain ⟨a, b⟩ := e
    by_cases ha : a = k
    · subst ha
      have hb : b = v := by simpa [odGet] using h
      subst hb
      exact List.mem_cons_self _ _
    · simp only [odGet, ha, if_false] at h
      exact List.mem_cons_of_mem _ (ih h)

theorem odGet_of_mem_nodup {α : Type} (m : List (Str × α)) (k : Str) (v : α)
    (h : (k, v) ∈ m) (hn : (m.map Prod.fst).Nodup) : odGet m k = some v := by
  induction m with
  | nil => simp at h
  | cons e rest ih =>
    obtain ⟨a, b⟩ := e
    simp only [List.map_cons, List.nodup_cons] at hn
    rcases List.mem_cons.mp h with h' | h'
    · injection h' with h1 h2
      subst h1
      subst h2
      simp [odGet]
    · have ha : a ≠ k := by
        intro he
        exact hn.1 (he ▸ (List.mem_map_of_mem Prod.fst h'))
      simp only [odGet, ha, if_false]
      exact ih h' hn.2

theorem odGet_odDel_self {α : Type} (m : List (Str × α)) (k : Str)
    (hn : (m.map Prod.fst).Nodup) : odGet (odDel m k) k = none := by
  induction m with
  | nil => simp [odDel, odGet]
  | cons e rest ih =>
    obtain ⟨a, b⟩ := e
    simp only [List.map_cons, List.nodup_cons] at hn
    by_cases ha : a = k
    · subst ha
      simp only [odDel, if_pos rfl]
      exact (odGet_none_iff rest a).mpr hn.1
    · simp only [odDel, ha, if_false, odGet]
      exact ih hn.2

theorem odGet_odDel_ne {α : Type} (m : List (Str × α)) (k k' : Str) (h : k' ≠ k) :
    odGet (odDel m k) k' = odGet m k' := by
  induction m with
  | nil => simp [odDel]
  | cons e rest ih =>
    obtain ⟨a, b⟩ := e
    by_cases ha : a = k
    · subst ha
      have h' : a ≠ k' := fun he => h he.symm
      simp [odDel, odGet, h']
    · by_cases ha' : a = k'
      · subst ha'
        simp [odDel, odGet, ha]
      · simp [odDel, odGet, ha, ha', ih]

theorem map_fst_odDel_sublist {α : Type} (m : List (Str × α)) (k : Str) :
    ((odDel m k).map Prod.fst).Sublist (m.map Prod.fst) := by
  induction m with
  | nil => simp [odDel]
  | cons e rest ih =>
    obtain ⟨a, b⟩ := e
    by_cases ha : a = k
    · simp only [odDel, if_pos ha, List.map_cons]
      exact List.sublist_cons_self _ _
    · simp only [odDel, if_neg ha, List.map_cons]
      exact ih.cons₂ a

theorem nodup_map_fst_odDel {α : Type} (m : List (Str × α)) (k : Str)
    (h : (m.map Prod.fst).Nodup) : ((odDel m k).map Prod.fst).Nodup :=
  (map_fst_odDel_sublist m k).nodup h

theorem odSetSec_eq_odMapAt (d : Doc) (n k v : Str) :
    odSetSec d n k v = odMapAt d n (fun m => odSet m k v) := rfl

theorem odMapAt_cons_eq (a : Str) (b : SecMap) (rest : Doc) (n : Str) (f : SecMap → SecMap)
    (h : a = n) : odMapAt ((a, b) :: rest) n f = (a, f b) :: odMapAt rest n f := by
  simp [odMapAt, h]

theorem odMapAt_cons_ne (a : Str) (b : SecMap) (rest : Doc) (n : Str) (f : SecMap → SecMap)
    (h : ¬a = n) : odMapAt ((a, b) :: rest) n f = (a, b) :: odMapAt rest n f := by
  simp [odMapAt, h]

theorem odGet_odMapAt_self (d : Doc) (n : Str) (f : SecMap → SecMap) :
    odGet (odMapAt d n f) n = (odGet d n).map f := by
  induction d with
  | nil => simp [odMapAt, odGet]
  | cons e rest ih =>
    obtain ⟨a, b⟩ := e
    by_cases ha : a = n
    · subst ha
      rw [odMapAt_cons_eq a b rest a f rfl]
      simp [odGet]
    · rw [odMapAt_cons_ne a b rest n f ha]
      simp only [odGet, ha, if_false]
      exact ih

theorem odGet_odMapAt_ne (d : Doc) (n : Str) (f : SecMap → SecMap) (n' : Str) (h : n' ≠ n) :
    odGet (odMapAt d n f) n' = odGet d n' := by
  induction d with
  | nil => simp [odMapAt, odGet]
  | cons e rest ih =>
    obtain ⟨a, b⟩ := e
    by_cases ha : a = n
    · subst ha
      have h' : a ≠ n' := fun he => h he.symm
      rw [odMapAt_cons_eq a b rest a f rfl]
      simp only [odGet, h', if_false]
      exact ih
    · rw [odMapAt_cons_ne a b rest n f ha]
      by_cases ha' : a = n'
      · subst ha'
        simp [odGet]
      · simp only [odGet, ha', if_false]
        exact ih

theorem map_fst_odMapAt (d : Doc) (n : Str) (f : SecMap → SecMap) :
    (odMapAt d n f).map Prod.fst = d.map Prod.fst := by
  induction d with
  | nil => rfl
  | cons e rest ih =>
    obtain ⟨a, b⟩ := e
    by_cases ha : a = n
    · subst ha
      rw [odMapAt_cons_eq a b rest a f rfl]
      simp only [List.map_cons]
      rw [ih]
    · rw [odMapAt_cons_ne a b rest n f ha]
      simp only [List.map_cons]
      rw [ih]

theorem pyPartitionEq_append (a b : Str) (h : '=' ∉ a) :
    pyPartitionEq (a ++ '=' :: b) = (a, b) := by
  induction a with
  | nil => simp [pyPartitionEq]
  | cons c t ih =>
    have hc : c ≠ '=' := fun he => h (he ▸ List.mem_cons_self c t)
    have ht : '=' ∉ t := fun hm => h (List.mem_cons_of_mem c hm)
    simp [pyPartitionEq, hc, ih ht]

theorem pyPartitionEq_spec (l : Str) (h : '=' ∈ l) :
    l = (pyPartitionEq l).1 ++ '=' :: (pyPartitionEq l).2 ∧ '=' ∉ (pyPartitionEq l).1 := by
  induction l with
  | nil => simp at h
  | cons c t ih =>
    by_cases hc : c = '='
    · subst hc
      simp [pyPartitionEq]
    · have ht : '=' ∈ t := by
        rcases List.mem_cons.mp h with h' | h'
        · exact absurd h'.symm hc
        · exact h'
      obtain ⟨ih1, ih2⟩ := ih ht
      constructor
      · simp only [pyPartitionEq, hc, if_false]
        exact by rw [List.cons_append, ← ih1]
      · simp only [pyPartitionEq, hc, if_false]
        intro hm
        rcases List.mem_cons.mp hm with h' | h'
        · exact hc h'.symm
        · exact ih2 h'

theorem mem_pyPartitionEq_fst (l : Str) (c : Char) (h : c ∈ (pyPartitionEq l).1) : c ∈ l := by
  induction l with
  | nil => simp [pyPartitionEq] at h
  | cons a t ih =>
    by_cases ha : a = '='
    · simp [pyPartitionEq, ha] at h
    · simp only [pyPartitionEq, ha, if_false] at h
      rcases List.mem_cons.mp h with h' | h'
      · simp [h']
      · exact List.mem_cons_of_mem _ (ih h')

theorem mem_pyPartitionEq_snd (l : Str) (c : Char) (h : c ∈ (pyPartitionEq l).2) : c ∈ l := by
  induction l with
  | nil => simp [pyPartitionEq] at h
  | cons a t ih =>
    by_cases ha : a = '='
    · simp only [pyPartitionEq, ha, if_pos rfl] at h
      exact List.mem_cons_of_mem _ h
    · simp only [pyPartitionEq, ha, if_false] at h
      exact List.mem_cons_of_mem _ (ih h)

theorem contains_eq_false_of_not_mem (l : Str) (c : Char) (h : c ∉ l) :
    l.contains c = false := by
  simp [List.contains]
  exact fun hm => absurd hm h

theorem not_mem_of_contains_eq_false (l : Str) (c : Char) (h : l.contains c = false) :
    c ∉ l := by
  simp [List.contains] at h
  exact h

theorem headerName_concat (n : Str) (h1 : n ≠ []) (h2 : '\n' ∉ n) :
    headerName ('[' :: (n ++ [']'])) = some n := by
  simp [headerName, List.getLast?_concat, List.dropLast_concat, h1, h2]

theorem headerName_some_inv (l : Str) (n : Str) (h : headerName l = some n) :
    l = '[' :: (n ++ [']']) ∧ n ≠ [] ∧ '\n' ∉ n := by
  cases l with
  | nil => simp [headerName] at h
  | cons c rest =>
    simp only [headerName] at h
    split at h
    case isTrue hcond =>
      injection h with hn
      subst hn
      simp only [Bool.and_eq_true, decide_eq_true_eq] at hcond
      obtain ⟨⟨⟨hc, hlast⟩, hne⟩, hnl⟩ := hcond
      have hrest : rest ≠ [] := by
        intro he; rw [he] at hlast; simp at hlast
      constructor
      · rw [hc]
        congr 1
        conv_lhs => rw [← List.dropLast_append_getLast hrest]
        congr 1
        have := List.getLast?_eq_getLast rest hrest
        rw [this] at hlast
        simpa using hlast
      · constructor
        · simpa using hne
        · exact not_mem_of_contains_eq_false _ _ (by simpa using hnl)
    case isFalse => exact absurd h (by simp)

theorem splitU_cons_newline (t : Str) : splitU ('\n' :: t) = [] :: splitU t := by
  cases t with
  | nil => simp [splitU]
  | cons c2 rest => simp [splitU]

theorem splitU_ne_nil_aux (t : Str) (h : splitU t = []) : False := by
  cases t with
  | nil => simp [splitU] at h
  | cons c rest =>
    cases rest with
    | nil =>
      simp only [splitU] at h
      split at h <;> simp at h
    | cons c2 rest2 =>
      simp only [splitU] at h
      split at h
      · split at h <;> simp at h
      · split at h
        · simp at h
        · split at h <;> simp at h

theorem splitU_clean : ∀ (t : Str), ∀ l ∈ splitU t, '\n' ∉ l ∧ '\r' ∉ l
  | [] => by simp [splitU]
  | [c] => by
    simp only [splitU]
    split
    · simp
    · rename_i hcond
      simp only [Bool.or_eq_true, decide_eq_true_eq, not_or] at hcond
      intro l hl
      rw [List.mem_singleton] at hl
      subst hl
      refine ⟨?_, ?_⟩ <;> intro hm <;> rw [List.mem_singleton] at hm
      · exact hcond.2 hm.symm
      · exact hcond.1 hm.symm
  | c :: c2 :: rest => by
    simp only [splitU]
    split
    · rename_i hr
      split
      · rename_i hn2
        intro l hl
        rcases List.mem_cons.mp hl with h | h
        · subst h; simp
        · exact splitU_clean rest l h
      · intro l hl
        rcases List.mem_cons.mp hl with h | h
        · subst h; simp
        · exact splitU_clean (c2 :: rest) l h
    · rename_i hr
      split
      · intro l hl
        rcases List.mem_cons.mp hl with h | h
        · subst h; simp
        · exact splitU_clean (c2 :: rest) l h
      · rename_i hn
        split
        · rename_i hsp
          exact absurd hsp (by
            intro hcontra
            exact splitU_ne_nil_aux (c2 :: rest) hcontra)
        · rename_i l0 ls0 hsp
          intro l hl
          rcases List.mem_cons.mp hl with h | h
          · subst h
            have hc0 : l0 ∈ splitU (c2 :: rest) := by
              rw [hsp]; exact List.mem_cons_self _ _
            have hcl := splitU_clean (c2 :: rest) l0 hc0
            refine ⟨?_, ?_⟩ <;> intro hm <;> rcases List.mem_cons.mp hm with h' | h'
            · exact hn h'.symm
            · exact hcl.1 h'
            · exact hr h'.symm
            · exact hcl.2 h'
          · have : l ∈ splitU (c2 :: rest) := by
              rw [hsp]; exact List.mem_cons_of_mem _ h
            exact splitU_clean (c2 :: rest) l this

theorem splitU_append_cons (l t : Str) (h1 : '\n' ∉ l) (h2 : '\r' ∉ l) :
    splitU (l ++ '\n' :: t) = l :: splitU t := by
  induction l with
  | nil => exact splitU_cons_newline t
  | cons c l' ih =>
    have hc1 : ¬(c = '\n') := fun he => h1 (he ▸ List.mem_cons_self c l')
    have hc2 : ¬(c = '\r') := fun he => h2 (he ▸ List.mem_cons_self c l')
    have h1' : '\n' ∉ l' := fun hm => h1 (List.mem_cons_of_mem c hm)
    have h2' : '\r' ∉ l' := fun hm => h2 (List.mem_cons_of_mem c hm)
    cases l' with
    | nil =>
      show splitU (c :: '\n' :: t) = [c] :: splitU t
      simp only [splitU, if_neg hc2, if_neg hc1, splitU_cons_newline t]
    | cons c2 l'' =>
      show splitU (c :: ((c2 :: l'') ++ '\n' :: t)) = (c :: c2 :: l'') :: splitU t
      have hne : (c2 :: l'') ++ '\n' :: t = c2 :: (l'' ++ '\n' :: t) := rfl
      rw [show c :: ((c2 :: l'') ++ '\n' :: t) = c :: c2 :: (l'' ++ '\n' :: t) from rfl]
      simp only [splitU, if_neg hc2, if_neg hc1]
      rw [show c2 :: (l'' ++ '\n' :: t) = (c2 :: l'') ++ '\n' :: t from rfl, ih h1' h2']

theorem splitU_of_clean (l : Str) (h1 : '\n' ∉ l) (h2 : '\r' ∉ l) : splitU l = [l] := by
  induction l with
  | nil => rfl
  | cons c t ih =>
    have hc1 : ¬(c = '\n') := fun he => h1 (he ▸ List.mem_cons_self c t)
    have hc2 : ¬(c = '\r') := fun he => h2 (he ▸ List.mem_cons_self c t)
    have h1' : '\n' ∉ t := fun hm => h1 (List.mem_cons_of_mem c hm)
    have h2' : '\r' ∉ t := fun hm => h2 (List.mem_cons_of_mem c hm)
    cases t with
    | nil =>
      simp only [splitU]
      rw [if_neg (by simp [hc1, hc2])]
    | cons c2 t' =>
      simp only [splitU, if_neg hc2, if_neg hc1, ih h1' h2']

theorem mem_of_mem_dropLast {α : Type} (xs : List α) (x : α) (h : x ∈ xs.dropLast) : x ∈ xs := by
  induction xs with
  | nil => simp at h
  | cons a t ih =>
    cases t with
    | nil => simp at h
    | cons b t' =>
      rw [List.dropLast_cons₂] at h
      rcases List.mem_cons.mp h with h' | h'
      · exact h' ▸ List.mem_cons_self _ _
      · exact List.mem_cons_of_mem _ (ih h')

theorem mem_pyLines_clean (t : Str) (l : Str) (h : l ∈ pyLines t) : '\n' ∉ l ∧ '\r' ∉ l := by
  have h' : l ∈ (if (splitU t).getLast? = some [] then (splitU t).dropLast else splitU t) := by
    simpa [pyLines] using h
  have hmem : l ∈ splitU t := by
    split at h'
    · exact mem_of_mem_dropLast _ _ h'
    · exact h'
  exact splitU_clean t l hmem

theorem not_mem_kvRaw (c : Char) (k v : Str) (hc1 : c ≠ ' ') (hc2 : c ≠ '=')
    (h1 : c ∉ k) (h2 : c ∉ v) : c ∉ k ++ ' ' :: '=' :: ' ' :: v := by
  intro hm
  rcases List.mem_append.mp hm with h | h
  · exact h1 h
  · rcases List.mem_cons.mp h with h | h
    · exact hc1 h
    rcases List.mem_cons.mp h with h | h
    · exact hc2 h
    rcases List.mem_cons.mp h with h | h
    · exact hc1 h
    · exact h2 h

theorem not_mem_hline (c : Char) (n : Str) (hc1 : c ≠ '[') (hc2 : c ≠ ']') (h : c ∉ n) :
    c ∉ '[' :: (n ++ [']']) := by
  intro hm
  rcases List.mem_cons.mp hm with h' | h'
  · exact hc1 h'
  · rcases List.mem_append.mp h' with h' | h'
    · exact h h'
    · rw [List.mem_singleton] at h'
      exact hc2 h'

theorem kvLine_append (k v s : Str) :
    kvLine k v ++ s = (k ++ ' ' :: '=' :: ' ' :: v) ++ '\n' :: s := by
  simp [kvLine]

theorem splitU_flatten_kv (m : SecMap) (t : Str)
    (hm : ∀ kv ∈ m, '\n' ∉ kv.1 ∧ '\r' ∉ kv.1 ∧ '\n' ∉ kv.2 ∧ '\r' ∉ kv.2) :
    splitU ((m.map (fun kv => kvLine kv.1 kv.2)).flatten ++ t)
      = m.map (fun kv => kv.1 ++ ' ' :: '=' :: ' ' :: kv.2) ++ splitU t := by
  induction m with
  | nil => simp
  | cons kv m' ih =>
    obtain ⟨k, v⟩ := kv
    have hkv := hm (k, v) (List.mem_cons_self _ _)
    have hm' : ∀ kv ∈ m', '\n' ∉ kv.1 ∧ '\r' ∉ kv.1 ∧ '\n' ∉ kv.2 ∧ '\r' ∉ kv.2 :=
      fun kv hkv => hm kv (List.mem_cons_of_mem _ hkv)
    simp only [List.map_cons, List.flatten_cons, List.append_assoc]
    rw [show kvLine k v ++ ((List.map (fun kv => kvLine kv.1 kv.2) m').flatten ++ t)
        = (k ++ ' ' :: '=' :: ' ' :: v)
            ++ '\n' :: ((List.map (fun kv => kvLine kv.1 kv.2) m').flatten ++ t) from by
      simp [kvLine]]
    rw [splitU_append_cons _ _
      (not_mem_kvRaw '\n' k v (by decide) (by decide) hkv.1 hkv.2.2.1)
      (not_mem_kvRaw '\r' k v (by decide) (by decide) hkv.2.1 hkv.2.2.2),
      ih hm']
    simp

theorem splitU_sectionText (n : Str) (m : SecMap) (t : Str)
    (hn1 : '\n' ∉ n) (hn2 : '\r' ∉ n)
    (hm : ∀ kv ∈ m, '\n' ∉ kv.1 ∧ '\r' ∉ kv.1 ∧ '\n' ∉ kv.2 ∧ '\r' ∉ kv.2) :
    splitU (sectionText n m ++ t)
      = ('[' :: (n ++ [']'])) ::
          (m.map (fun kv => kv.1 ++ ' ' :: '=' :: ' ' :: kv.2) ++ splitU t) := by
  have hshape : sectionText n m ++ t
      = ('[' :: (n ++ [']'])) ++ '\n' :: ((m.map (fun kv => kvLine kv.1 kv.2)).flatten ++ t) := by
    simp [sectionText]
  rw [hshape,
    splitU_append_cons _ _ (not_mem_hline '\n' n (by decide) (by decide) hn1)
      (not_mem_hline '\r' n (by decide) (by decide) hn2),
    splitU_flatten_kv m t hm]

theorem ValidDoc_cons (s : Str × SecMap) (d : Doc) (hd : ValidDoc (s :: d)) :
    (ValidName s.1 ∧ ValidSec s.2) ∧ ValidDoc d := by
  obtain ⟨hnodup, hall⟩ := hd
  simp only [List.map_cons, List.nodup_cons] at hnodup
  exact ⟨hall s (List.mem_cons_self _ _),
    hnodup.2, fun x hx => hall x (List.mem_cons_of_mem _ hx)⟩

theorem ValidSec_clean (m : SecMap) (hs : ValidSec m) :
    ∀ kv ∈ m, '\n' ∉ kv.1 ∧ '\r' ∉ kv.1 ∧ '\n' ∉ kv.2 ∧ '\r' ∉ kv.2 := by
  intro kv hkv
  obtain ⟨_, _, _, h4, h5, h6, h7, _⟩ := hs.2 kv hkv
  exact ⟨h4, h5, h6, h7⟩

theorem splitU_write : ∀ (d : Doc), ValidDoc d → d ≠ [] →
    splitU (write_rclone_sections d) = docLines d ++ [[]]
  | [], _, hne => absurd rfl hne
  | [s], hd, _ => by
    obtain ⟨⟨hname, hsec⟩, _⟩ := ValidDoc_cons s [] hd
    rw [show write_rclone_sections [s] = sectionText s.1 s.2 from rfl,
      ← List.append_nil (sectionText s.1 s.2),
      splitU_sectionText s.1 s.2 [] hname.2.1 hname.2.2 (ValidSec_clean s.2 hsec)]
    simp [docLines, splitU]
  | s :: s' :: rest, hd, _ => by
    obtain ⟨⟨hname, hsec⟩, hd'⟩ := ValidDoc_cons s (s' :: rest) hd
    rw [show write_rclone_sections (s :: s' :: rest)
        = sectionText s.1 s.2 ++ '\n' :: write_rclone_sections (s' :: rest) from rfl,
      splitU_sectionText s.1 s.2 _ hname.2.1 hname.2.2 (ValidSec_clean s.2 hsec),
      splitU_cons_newline, splitU_write (s' :: rest) hd' (by simp)]
    simp [docLines]

theorem pyLines_write (d : Doc) (hd : ValidDoc d) :
    pyLines (write_rclone_sections d) = docLines d := by
  cases d with
  | nil => rfl
  | cons s rest =>
    unfold pyLines
    rw [splitU_write (s :: rest) hd (by simp)]
    simp [List.getLast?_concat, List.dropLast_concat]

theorem rstripRN_of_clean (l : Str) (h1 : '\n' ∉ l) (h2 : '\r' ∉ l) : rstripRN l = l := by
  apply rstripW_eq_self_of_getLast?
  intro c hc
  have hmem : c ∈ l := by
    have hne : l ≠ [] := by
      intro he
      rw [he] at hc
      simp at hc
    have := List.getLast?_eq_getLast l hne
    rw [this] at hc
    simp only [Option.some.injEq] at hc
    exact hc ▸ List.getLast_mem hne
  have hcn : c ≠ '\n' := fun he => h1 (he ▸ hmem)
  have hcr : c ≠ '\r' := fun he => h2 (he ▸ hmem)
  simp [hcn, hcr]

theorem headerName_none_head (c : Char) (rest : Str) (h : c ≠ '[') :
    headerName (c :: rest) = none := by
  simp [headerName, h]

theorem headerName_none_last (l : Str) (h : l.getLast? ≠ some ']') : headerName l = none := by
  cases l with
  | nil => rfl
  | cons c rest =>
    cases hr : rest with
    | nil => simp [headerName]
    | cons c2 rest2 =>
      have : (c :: rest).getLast? = rest.getLast? := by
        rw [hr]
        exact List.getLast?_cons_cons
      rw [hr] at this
      rw [← hr] at *
      have hrl : rest.getLast? ≠ some ']' := by
        rw [← this]
        exact h
      simp [headerName, hrl]

theorem parseLine_blank (st : Doc × Option Str) : parseLine st [] = st := by
  obtain ⟨d, c⟩ := st
  cases c <;> rfl

theorem parseLine_header (d : Doc) (c : Option Str) (line n : Str)
    (h1 : '\n' ∉ line) (h2 : '\r' ∉ line)
    (h : headerName (pyStrip line) = some n) :
    parseLine (d, c) line = (odSet d n [], some n) := by
  simp only [parseLine, rstripRN_of_clean line h1 h2, h]

theorem mem_kvRaw_cases (c : Char) (k v : Str) (h : c ∈ k ++ ' ' :: '=' :: ' ' :: v) :
    c ∈ k ∨ c = ' ' ∨ c = '=' ∨ c ∈ v := by
  rcases List.mem_append.mp h with h | h
  · exact Or.inl h
  · rcases List.mem_cons.mp h with h | h
    · exact Or.inr (Or.inl h)
    rcases List.mem_cons.mp h with h | h
    · exact Or.inr (Or.inr (Or.inl h))
    rcases List.mem_cons.mp h with h | h
    · exact Or.inr (Or.inl h)
    · exact Or.inr (Or.inr (Or.inr h))

theorem pyStrip_kvRaw (k v : Str) :
    pyStrip (k ++ ' ' :: '=' :: ' ' :: v)
      = lstripW isPySpace (k ++ [' ']) ++ '=' :: rstripW isPySpace (' ' :: v) := by
  rw [show k ++ ' ' :: '=' :: ' ' :: v = (k ++ [' ']) ++ '=' :: (' ' :: v) from by simp]
  exact pyStrip_append_cons '=' (by decide) _ _

theorem lstripW_kSpace (k : Str) (hsk : pyStrip k = k) :
    lstripW isPySpace (k ++ [' ']) = k ++ [' '] ∨ (k = [] ∧ lstripW isPySpace (k ++ [' ']) = []) := by
  cases k with
  | nil =>
    right
    exact ⟨rfl, by decide⟩
  | cons c0 k' =>
    left
    have hhead : isPySpace c0 = false :=
      lstripW_fixed_head_not _ c0 _ (pyStrip_fixed_lstripW _ hsk) rfl
    rw [show (c0 :: k') ++ [' '] = c0 :: (k' ++ [' ']) from rfl]
    exact lstripW_cons_neg _ _ _ hhead

theorem rstripW_spaceV (v : Str) (hsv : pyStrip v = v) :
    rstripW isPySpace (' ' :: v) = ' ' :: v ∨ (v = [] ∧ rstripW isPySpace (' ' :: v) = []) := by
  cases hv : v with
  | nil =>
    right
    exact ⟨rfl, by decide⟩
  | cons v0 v' =>
    left
    have hrv : rstripW isPySpace v = v := pyStrip_fixed_rstripW _ hsv
    rw [← hv]
    rw [show (' ' :: v) = [' '] ++ v from rfl]
    rw [rstripW_append_of_ne_nil _ _ _ (by rw [hrv, hv]; simp), hrv]

theorem headerName_pyStrip_kvRaw_none (k v : Str) (hkv : ValidKV k v) :
    headerName (pyStrip (k ++ ' ' :: '=' :: ' ' :: v)) = none := by
  obtain ⟨hsk, hsv, hek, hnk, hrk, hnv, hrv, hsh⟩ := hkv
  rw [pyStrip_kvRaw k v]
  rcases lstripW_kSpace k hsk with hA | ⟨hknil, hA⟩
  · rcases rstripW_spaceV v hsv with hB | ⟨hvnil, hB⟩
    · rw [hA, hB]
      cases hk : k with
      | nil =>
        subst hk
        simp only [List.nil_append]
        exact headerName_none_head ' ' _ (by decide)
      | cons c0 k' =>
        by_cases hc0 : c0 = '['
        · subst hc0
          apply headerName_none_last
          have hvne : v ≠ [] := by
            intro he
            subst he
            rw [show rstripW isPySpace (' ' :: ([] : Str)) = [] from by decide] at hB
            simp at hB
          have hlastv : v.getLast? ≠ some ']' := by
            intro hlv
            exact hsh ⟨by rw [hk]; rfl, hlv⟩
          rw [show ('[' :: k' ++ [' ']) ++ '=' :: ' ' :: v = '[' :: k' ++ ([' '] ++ (['='] ++ ([' '] ++ v))) from by simp]
          rw [List.getLast?_append_of_ne_nil _ (by simp),
            List.getLast?_append_of_ne_nil _ (by simp),
            List.getLast?_append_of_ne_nil _ (by simp),
            List.getLast?_append_of_ne_nil _ hvne]
          exact hlastv
        · rw [show (c0 :: k' ++ [' ']) ++ '=' :: ' ' :: v = c0 :: (k' ++ [' '] ++ '=' :: ' ' :: v) from by simp]
          exact headerName_none_head c0 _ hc0
    · rw [hA, hB]
      apply headerName_none_last
      intro hcontra
      rw [List.getLast?_append_of_ne_nil _ (show (['='] : Str) ≠ [] from by simp)] at hcontra
      simp at hcontra
  · rw [hA]
    simp only [List.nil_append]
    exact headerName_none_head '=' _ (by decide)

theorem parseLine_kv (d : Doc) (cur : Str) (k v : Str) (hkv : ValidKV k v) :
    parseLine (d, some cur) (k ++ ' ' :: '=' :: ' ' :: v) = (odSetSec d cur k v, some cur) := by
  obtain ⟨hsk, hsv, hek, hnk, hrk, hnv, hrv, hsh⟩ := hkv
  have hclean1 : '\n' ∉ k ++ ' ' :: '=' :: ' ' :: v :=
    not_mem_kvRaw '\n' k v (by decide) (by decide) hnk hnv
  have hclean2 : '\r' ∉ k ++ ' ' :: '=' :: ' ' :: v :=
    not_mem_kvRaw '\r' k v (by decide) (by decide) hrk hrv
  have hhn := headerName_pyStrip_kvRaw_none k v ⟨hsk, hsv, hek, hnk, hrk, hnv, hrv, hsh⟩
  have hmem : '=' ∈ k ++ ' ' :: '=' :: ' ' :: v := by simp
  have hpart : pyPartitionEq (k ++ ' ' :: '=' :: ' ' :: v) = (k ++ [' '], ' ' :: v) := by
    rw [show k ++ ' ' :: '=' :: ' ' :: v = (k ++ [' ']) ++ '=' :: (' ' :: v) from by simp]
    apply pyPartitionEq_append
    intro hm
    rcases List.mem_append.mp hm with h | h
    · exact hek h
    · rw [List.mem_singleton] at h
      exact absurd h (by decide)
  simp only [parseLine, rstripRN_of_clean _ hclean1 hclean2, hhn, if_pos hmem, hpart,
    pyStrip_append_space k hsk, pyStrip_cons_space v hsv]

theorem mem_odMapAt (d : Doc) (n : Str) (f : SecMap → SecMap) (x : Str × SecMap)
    (h : x ∈ odMapAt d n f) : ∃ s, s ∈ d ∧ (x = s ∨ x = (s.1, f s.2)) := by
  unfold odMapAt at h
  rcases List.mem_map.mp h with ⟨s, hs, he⟩
  refine ⟨s, hs, ?_⟩
  by_cases hc : s.1 = n
  · right
    rw [← he, if_pos hc]
  · left
    rw [← he, if_neg hc]

theorem ValidSec_nil : ValidSec [] := ⟨List.nodup_nil, by simp⟩

theorem ValidDoc_nil : ValidDoc [] := ⟨List.nodup_nil, by simp⟩

theorem ValidDoc_odSet_nil (d : Doc) (n : Str) (hd : ValidDoc d) (hn : ValidName n) :
    ValidDoc (odSet d n []) := by
  refine ⟨nodup_map_fst_odSet d n [] hd.1, ?_⟩
  intro s hs
  rcases mem_odSet d n [] s hs with h | h
  · rw [h]
    exact ⟨hn, ValidSec_nil⟩
  · exact hd.2 s h

theorem ValidDoc_odSetSec (d : Doc) (cur k v : Str) (hd : ValidDoc d) (hkv : ValidKV k v) :
    ValidDoc (odSetSec d cur k v) := by
  rw [odSetSec_eq_odMapAt]
  refine ⟨by rw [map_fst_odMapAt]; exact hd.1, ?_⟩
  intro s hs
  rcases mem_odMapAt d cur _ s hs with ⟨s0, hs0, h | h⟩
  · rw [h]
    exact hd.2 s0 hs0
  · rw [h]
    obtain ⟨hname, hsec⟩ := hd.2 s0 hs0
    refine ⟨hname, nodup_map_fst_odSet s0.2 k v hsec.1, ?_⟩
    intro kv hkv'
    rcases mem_odSet s0.2 k v kv hkv' with h' | h'
    · rw [h']
      exact hkv
    · exact hsec.2 kv h'

theorem parse_kv_valid (raw : Str) (h1 : '\n' ∉ raw) (h2 : '\r' ∉ raw)
    (hhn : headerName (pyStrip raw) = none) (hmem : '=' ∈ raw) :
    ValidKV (pyStrip (pyPartitionEq raw).1) (pyStrip (pyPartitionEq raw).2) := by
  obtain ⟨hspec, hnf⟩ := pyPartitionEq_spec raw hmem
  set p1 := (pyPartitionEq raw).1 with hp1
  set p2 := (pyPartitionEq raw).2 with hp2
  refine ⟨pyStrip_idem p1, pyStrip_idem p2, ?_, ?_, ?_, ?_, ?_, ?_⟩
  · intro hm
    exact hnf (mem_pyStrip p1 '=' hm)
  · intro hm
    exact h1 (mem_pyPartitionEq_fst raw '\n' (mem_pyStrip p1 '\n' hm))
  · intro hm
    exact h2 (mem_pyPartitionEq_fst raw '\r' (mem_pyStrip p1 '\r' hm))
  · intro hm
    exact h1 (mem_pyPartitionEq_snd raw '\n' (mem_pyStrip p2 '\n' hm))
  · intro hm
    exact h2 (mem_pyPartitionEq_snd raw '\r' (mem_pyStrip p2 '\r' hm))
  · rintro ⟨hk, hv⟩
    set k := pyStrip p1 with hkdef
    set v := pyStrip p2 with hvdef
    have hkne : k ≠ [] := by
      intro he
      rw [he] at hk
      simp at hk
    have hvne : v ≠ [] := by
      intro he
      rw [he] at hv
      simp at hv
    have hl1 : lstripW isPySpace p1 ≠ [] := by
      intro he
      apply hkne
      rw [hkdef]
      show rstripW isPySpace (lstripW isPySpace p1) = []
      rw [he]
      rfl
    have hps : pyStrip raw = lstripW isPySpace p1 ++ '=' :: rstripW isPySpace p2 := by
      conv_lhs => rw [hspec]
      exact pyStrip_append_cons '=' (by decide) p1 p2
    have hkne' : rstripW isPySpace (lstripW isPySpace p1) ≠ [] := by
      have hx : pyStrip p1 ≠ [] := by
        rw [← hkdef]
        exact hkne
      exact hx
    have hheadA : (lstripW isPySpace p1).head? = some '[' := by
      have hstep := head?_rstripW isPySpace (lstripW isPySpace p1) hkne'
      have hk' : (pyStrip p1).head? = some '[' := by
        rw [← hkdef]
        exact hk
      rw [← hstep]
      exact hk' 
    obtain ⟨a, tl, hA⟩ : ∃ a tl, lstripW isPySpace p1 = a :: tl := by
      cases hlp : lstripW isPySpace p1 with
      | nil => exact absurd hlp hl1
      | cons a tl => exact ⟨a, tl, rfl⟩
    have ha : a = '[' := by
      rw [hA] at hheadA
      simpa using hheadA
    have hvne' : rstripW isPySpace (lstripW isPySpace p2) ≠ [] := by
      have hx : pyStrip p2 ≠ [] := by
        rw [← hvdef]
        exact hvne
      exact hx
    have hdecomp : rstripW isPySpace p2 = (p2.takeWhile isPySpace) ++ v := by
      conv_lhs => rw [← List.takeWhile_append_dropWhile (p := isPySpace) (l := p2)]
      rw [show List.dropWhile isPySpace p2 = lstripW isPySpace p2 from rfl,
        rstripW_append_of_ne_nil _ _ _ hvne']
      rw [hvdef]
      rfl
    have hlastB : (rstripW isPySpace p2).getLast? = some ']' := by
      rw [hdecomp, List.getLast?_append_of_ne_nil _ hvne]
      exact hv
    have hBne : rstripW isPySpace p2 ≠ [] := by
      intro he
      rw [he] at hlastB
      simp at hlastB
    have hfinal : pyStrip raw = '[' :: (tl ++ '=' :: rstripW isPySpace p2) := by
      rw [hps, hA, ha]
      rfl
    have hlastR : (tl ++ '=' :: rstripW isPySpace p2).getLast? = some ']' := by
      rw [List.getLast?_append_of_ne_nil _ (by simp),
        show ('=' :: rstripW isPySpace p2) = ['='] ++ rstripW isPySpace p2 from rfl,
        List.getLast?_append_of_ne_nil _ hBne]
      exact hlastB
    have hlen : (tl ++ '=' :: rstripW isPySpace p2).dropLast ≠ [] := by
      intro he
      have := congrArg List.length he
      rw [List.length_dropLast, List.length_append, List.length_cons] at this
      simp only [List.length_nil] at this
      have hBlen : 0 < (rstripW isPySpace p2).length := List.length_pos.mpr hBne
      omega
    have hnomem : '\n' ∉ (tl ++ '=' :: rstripW isPySpace p2).dropLast := by
      intro hm
      apply h1
      have hm1 : '\n' ∈ tl ++ '=' :: rstripW isPySpace p2 := mem_of_mem_dropLast _ _ hm
      have hm2 : '\n' ∈ pyStrip raw := by
        rw [hfinal]
        exact List.mem_cons_of_mem _ hm1
      exact mem_pyStrip raw '\n' hm2
    have hRne : tl ++ '=' :: rstripW isPySpace p2 ≠ [] := by simp
    have hgl : (tl ++ '=' :: rstripW isPySpace p2).getLast hRne = ']' := by
      have hx := List.getLast?_eq_getLast (tl ++ '=' :: rstripW isPySpace p2) hRne
      rw [hx] at hlastR
      simpa using hlastR
    have hRdecomp : tl ++ '=' :: rstripW isPySpace p2
        = (tl ++ '=' :: rstripW isPySpace p2).dropLast ++ [']'] := by
      conv_lhs => rw [← List.dropLast_append_getLast hRne, hgl]
    have hfinal2 : pyStrip raw
        = '[' :: ((tl ++ '=' :: rstripW isPySpace p2).dropLast ++ [']']) := by
      rw [hfinal, ← hRdecomp]
    have hsome := headerName_concat ((tl ++ '=' :: rstripW isPySpace p2).dropLast) hlen hnomem
    rw [hfinal2, hsome] at hhn
    exact absurd hhn (by simp)

theorem validDoc_parseLine (st : Doc × Option Str) (raw : Str)
    (h1 : '\n' ∉ raw) (h2 : '\r' ∉ raw) (hd : ValidDoc st.1) :
    ValidDoc (parseLine st raw).1 := by
  obtain ⟨d, c⟩ := st
  have hr := rstripRN_of_clean raw h1 h2
  cases hh : headerName (pyStrip raw) with
  | some n =>
    obtain ⟨hshape, hne, hnl⟩ := headerName_some_inv _ _ hh
    have hrl : '\r' ∉ n := by
      intro hm
      apply h2
      apply mem_pyStrip raw '\r'
      rw [hshape]
      exact List.mem_cons_of_mem _ (List.mem_append_left _ hm)
    rw [parseLine_header d c raw n h1 h2 hh]
    exact ValidDoc_odSet_nil d n hd ⟨hne, hnl, hrl⟩
  | none =>
    cases c with
    | none =>
      have heq : parseLine (d, none) raw = (d, none) := by
        simp only [parseLine, hr, hh]
      rw [heq]
      exact hd
    | some cur =>
      by_cases hmem : '=' ∈ raw
      · have heq : parseLine (d, some cur) raw
            = (odSetSec d cur (pyStrip (pyPartitionEq raw).1) (pyStrip (pyPartitionEq raw).2),
                some cur) := by
          simp only [parseLine, hr, hh, if_pos hmem]
        rw [heq]
        exact ValidDoc_odSetSec d cur _ _ hd (parse_kv_valid raw h1 h2 hh hmem)
      · have heq : parseLine (d, some cur) raw = (d, some cur) := by
          simp only [parseLine, hr, hh, if_neg hmem]
        rw [heq]
        exact hd

theorem validDoc_foldl (ls : List Str) (st : Doc × Option Str)
    (hls : ∀ l ∈ ls, '\n' ∉ l ∧ '\r' ∉ l) (hd : ValidDoc st.1) :
    ValidDoc ((ls.foldl parseLine st)).1 := by
  induction ls generalizing st with
  | nil => exact hd
  | cons l rest ih =>
    rw [List.foldl_cons]
    have hl := hls l (List.mem_cons_self _ _)
    exact ih _ (fun x hx => hls x (List.mem_cons_of_mem _ hx))
      (validDoc_parseLine st l hl.1 hl.2 hd)

theorem validDoc_parseText (t : Str) : ValidDoc (parseText t) := by
  unfold parseText
  exact validDoc_foldl (pyLines t) ([], none)
    (fun l hl => mem_pyLines_clean t l hl) ValidDoc_nil

theorem validDoc_read (conf : Option Str) : ValidDoc (read_rclone_sections conf) := by
  cases conf with
  | none => exact ValidDoc_nil
  | some t => exact validDoc_parseText t

theorem odSetSec_append_single (d : Doc) (n k v : Str) (m : SecMap)
    (hnd : ∀ s ∈ d, s.1 ≠ n) :
    odSetSec (d ++ [(n, m)]) n k v = d ++ [(n, odSet m k v)] := by
  rw [odSetSec_eq_odMapAt]
  unfold odMapAt
  rw [List.map_append]
  congr 1
  · conv_rhs => rw [← List.map_id d]
    apply List.map_congr_left
    intro s hs
    simp [hnd s hs]
  · simp

theorem foldl_kvLines (d : Doc) (n : Str) (c : Option Str) : ∀ (m acc : SecMap),
    c = some n →
    (∀ s ∈ d, s.1 ≠ n) →
    (m.map Prod.fst).Nodup →
    (∀ k ∈ m.map Prod.fst, k ∉ acc.map Prod.fst) →
    (∀ kv ∈ m, ValidKV kv.1 kv.2) →
    (m.map (fun kv => kv.1 ++ ' ' :: '=' :: ' ' :: kv.2)).foldl parseLine (d ++ [(n, acc)], c)
      = (d ++ [(n, acc ++ m)], some n)
  | [], acc, hc, _, _, _, _ => by simp [hc]
  | (k, v) :: m', acc, hc, hnd, hnodup, hdisj, hvalid => by
    subst hc
    rw [List.map_cons, List.foldl_cons,
      parseLine_kv (d ++ [(n, acc)]) n k v (hvalid (k, v) (List.mem_cons_self _ _)),
      odSetSec_append_single d n k v acc hnd,
      odSet_of_get_none acc k v ((odGet_none_iff acc k).mpr
        (hdisj k (by simp)))]
    rw [foldl_kvLines d n (some n) m' (acc ++ [(k, v)]) rfl hnd
      (by simpa using hnodup.of_cons)
      (by
        intro k' hk'
        simp only [List.map_append, List.mem_append, List.map_cons, List.map_nil,
          List.mem_singleton, not_or]
        constructor
        · exact hdisj k' (by simp [hk'])
        · intro he
          subst he
          simp only [List.map_cons, List.nodup_cons] at hnodup
          exact hnodup.1 hk')
      (fun kv hkv => hvalid kv (List.mem_cons_of_mem _ hkv))]
    simp

theorem pyStrip_hline (n : Str) : pyStrip ('[' :: (n ++ [']'])) = '[' :: (n ++ [']']) := by
  unfold pyStrip
  rw [lstripW_cons_neg _ _ _ (by decide)]
  apply rstripW_eq_self_of_getLast?
  intro c hc
  rw [show '[' :: (n ++ [']']) = ('[' :: n) ++ [']'] from by simp, List.getLast?_concat] at hc
  simp only [Option.some.injEq] at hc
  subst hc
  decide

theorem foldl_block (d : Doc) (c : Option Str) (n : Str) (m : SecMap)
    (hn : ValidName n) (hnotin : n ∉ d.map Prod.fst) (hsec : ValidSec m) :
    ((('[' :: (n ++ [']'])) :: m.map (fun kv => kv.1 ++ ' ' :: '=' :: ' ' :: kv.2)).foldl
        parseLine (d, c))
      = (d ++ [(n, m)], some n) := by
  rw [List.foldl_cons,
    parseLine_header d c _ n
      (not_mem_hline '\n' n (by decide) (by decide) hn.2.1)
      (not_mem_hline '\r' n (by decide) (by decide) hn.2.2)
      (by rw [pyStrip_hline]; exact headerName_concat n hn.1 hn.2.1),
    odSet_of_get_none d n [] ((odGet_none_iff d n).mpr hnotin)]
  rw [foldl_kvLines d n (some n) m [] rfl
    (fun s hs he => hnotin (he ▸ List.mem_map_of_mem Prod.fst hs))
    hsec.1 (by simp) hsec.2]
  simp

theorem ValidDoc_middle (done : Doc) (s : Str × SecMap) (rest : Doc)
    (h : ValidDoc (done ++ s :: rest)) :
    ValidName s.1 ∧ ValidSec s.2 ∧ s.1 ∉ done.map Prod.fst := by
  have hmem : s ∈ done ++ s :: rest := by simp
  refine ⟨(h.2 s hmem).1, (h.2 s hmem).2, ?_⟩
  have hnod := h.1
  rw [List.map_append, List.nodup_append] at hnod
  intro hin
  exact hnod.2.2 hin (by simp)

theorem foldl_docLines : ∀ (todo done : Doc) (c : Option Str),
    ValidDoc (done ++ todo) →
    (docLines todo).foldl parseLine (done, c)
      = (done ++ todo,
          match todo.getLast? with
          | some s => some s.1
          | none => c)
  | [], done, c, _ => by simp [docLines]
  | [s], done, c, h => by
    obtain ⟨n, m⟩ := s
    obtain ⟨hn, hsec, hnotin⟩ := ValidDoc_middle done (n, m) [] h
    rw [show docLines [(n, m)]
        = ('[' :: (n ++ [']'])) :: m.map (fun kv => kv.1 ++ ' ' :: '=' :: ' ' :: kv.2)
        from rfl]
    rw [foldl_block done c n m hn hnotin hsec]
    rfl
  | s :: s' :: rest, done, c, h => by
    obtain ⟨n, m⟩ := s
    obtain ⟨hn, hsec, hnotin⟩ := ValidDoc_middle done (n, m) (s' :: rest) h
    rw [show docLines ((n, m) :: s' :: rest)
        = (('[' :: (n ++ [']'])) :: m.map (fun kv => kv.1 ++ ' ' :: '=' :: ' ' :: kv.2))
            ++ [] :: docLines (s' :: rest) from by simp [docLines]]
    rw [List.foldl_append, foldl_block done c n m hn hnotin hsec, List.foldl_cons,
      parseLine_blank]
    have hvd : ValidDoc ((done ++ [(n, m)]) ++ (s' :: rest)) := by
      rw [List.append_assoc]
      exact h
    rw [foldl_docLines (s' :: rest) (done ++ [(n, m)]) (some n) hvd]
    rw [List.append_assoc]
    rfl

theorem parse_write (d : Doc) (hd : ValidDoc d) :
    parseText (write_rclone_sections d) = d := by
  unfold parseText
  rw [pyLines_write d hd, foldl_docLines d [] none (by simpa using hd)]
  simp

theorem redactSection_cons_secret (a b : Str) (rest : SecMap) (h : a ∈ secretKeys) :
    redactSection ((a, b) :: rest) = (a, lit ("[REDACTED]")) :: redactSection rest := by
  simp [redactSection, h]

theorem redactSection_cons_plain (a b : Str) (rest : SecMap) (h : a ∉ secretKeys) :
    redactSection ((a, b) :: rest) = (a, b) :: redactSection rest := by
  simp [redactSection, h]

theorem odGet_redactSection (m : SecMap) (k : Str) :
    odGet (redactSection m) k
      = (odGet m k).map (fun v => if k ∈ secretKeys then lit ("[REDACTED]") else v) := by
  induction m with
  | nil => rfl
  | cons e rest ih =>
    obtain ⟨a, b⟩ := e
    by_cases hs : a ∈ secretKeys
    · rw [redactSection_cons_secret a b rest hs]
      by_cases ha : a = k
      · subst ha
        simp [odGet, hs]
      · simp only [odGet, ha, if_false]
        exact ih
    · rw [redactSection_cons_plain a b rest hs]
      by_cases ha : a = k
      · subst ha
        simp [odGet, hs]
      · simp only [odGet, ha, if_false]
        exact ih

theorem reSubKwF_nil (kw : Str) (fuel : Nat) : reSubKwF kw fuel [] = [] := by
  cases fuel <;> rfl

theorem reSubKwF_step_match (kw : Str) (fuel : Nat) (c : Char) (t g rest : Str)
    (h : matchKw kw (c :: t) = some (g, rest)) :
    reSubKwF kw (fuel + 1) (c :: t) = g ++ lit ("[REDACTED]") ++ reSubKwF kw fuel rest := by
  simp [reSubKwF, h]

theorem reSubKwF_step_none (kw : Str) (fuel : Nat) (c : Char) (t : Str)
    (h : matchKw kw (c :: t) = none) :
    reSubKwF kw (fuel + 1) (c :: t) = c :: reSubKwF kw fuel t := by
  simp [reSubKwF, h]

theorem reSubKwF_id (kw : Str) : ∀ (fuel : Nat) (t : Str),
    (∀ i ≤ t.length, matchKw kw (t.drop i) = none) → reSubKwF kw fuel t = t
  | 0, t, _ => rfl
  | _ + 1, [], _ => rfl
  | fuel + 1, c :: t, h => by
    have h0 := h 0 (by simp)
    rw [List.drop_zero] at h0
    rw [reSubKwF_step_none kw fuel c t h0]
    congr 1
    exact reSubKwF_id kw fuel t (fun i hi => by
      have hx := h (i + 1) (by simpa using Nat.succ_le_succ hi)
      simpa using hx)

theorem reSubKw_id (kw t : Str) (h : noKwMatch kw t) : reSubKw kw t = t :=
  reSubKwF_id kw t.length t h

theorem takeWhile_nil_of_strip_fixed (v : Str) (hs : pyStrip v = v) :
    v.takeWhile isPySpace = [] := by
  have hl : lstripW isPySpace v = v := pyStrip_fixed_lstripW v hs
  have hd := List.takeWhile_append_dropWhile (p := isPySpace) (l := v)
  have hlen : (v.takeWhile isPySpace).length + (v.dropWhile isPySpace).length = v.length := by
    rw [← List.length_append, hd]
  have : (List.dropWhile isPySpace v).length = v.length := by
    rw [show List.dropWhile isPySpace v = lstripW isPySpace v from rfl, hl]
  have hz : (v.takeWhile isPySpace).length = 0 := by omega
  exact List.eq_nil_of_length_eq_zero hz

theorem dropWhile_ne_nl (v : Str) (hn : '\n' ∉ v) :
    v.dropWhile (fun c => !(c == '\n')) = [] := by
  induction v with
  | nil => rfl
  | cons c t ih =>
    have hc : ¬(c = '\n') := fun he => hn (he ▸ List.mem_cons_self c t)
    rw [List.dropWhile_cons, if_pos (by simpa using hc)]
    exact ih (fun hm => hn (List.mem_cons_of_mem c hm))

theorem matchKw_kw_line (kw v : Str) (hs : pyStrip v = v) (hn : '\n' ∉ v) :
    matchKw kw (kw ++ ' ' :: '=' :: ' ' :: v) = some (kw ++ [' '] ++ '=' :: [' '], []) := by
  unfold matchKw
  rw [if_pos (by
    rw [List.isPrefixOf_iff_prefix]
    exact List.prefix_append kw _)]
  rw [List.drop_left]
  have h1 : List.takeWhile isPySpace (' ' :: '=' :: ' ' :: v) = [' '] := by
    rw [List.takeWhile_cons, if_pos (by decide), List.takeWhile_cons, if_neg (by decide)]
  have h2 : List.dropWhile isPySpace (' ' :: '=' :: ' ' :: v) = '=' :: ' ' :: v := by
    rw [List.dropWhile_cons, if_pos (by decide), List.dropWhile_cons, if_neg (by decide)]
  have h3 : List.takeWhile isPySpace (' ' :: v) = [' '] := by
    rw [List.takeWhile_cons, if_pos (by decide), takeWhile_nil_of_strip_fixed v hs]
  have h4 : List.dropWhile isPySpace (' ' :: v) = v := by
    rw [List.dropWhile_cons, if_pos (by decide)]
    exact pyStrip_fixed_lstripW v hs
  simp only [h1, h2, h3, h4, dropWhile_ne_nl v hn]

theorem reSubKw_kw_line (kw v : Str) (hkw : kw ≠ []) (hs : pyStrip v = v) (hn : '\n' ∉ v) :
    reSubKw kw (kw ++ ' ' :: '=' :: ' ' :: v)
      = kw ++ ' ' :: '=' :: ' ' :: lit ("[REDACTED]") := by
  obtain ⟨c0, kw', rfl⟩ : ∃ c0 kw', kw = c0 :: kw' := by
    cases kw with
    | nil => exact absurd rfl hkw
    | cons c0 kw' => exact ⟨c0, kw', rfl⟩
  have hmatch := matchKw_kw_line (c0 :: kw') v hs hn
  show reSubKwF (c0 :: kw') ((kw' ++ ' ' :: '=' :: ' ' :: v).length + 1)
      (c0 :: (kw' ++ ' ' :: '=' :: ' ' :: v)) = _
  rw [reSubKwF_step_match (c0 :: kw') ((kw' ++ ' ' :: '=' :: ' ' :: v).length) c0
      (kw' ++ ' ' :: '=' :: ' ' :: v) ((c0 :: kw') ++ [' '] ++ '=' :: [' ']) [] hmatch,
    reSubKwF_nil]
  simp [lit]

theorem updStep_preserve (m : SecMap) (u : Str × Str) (k : Str) (hne : u.1 ≠ k) :
    odGet (updStep m u) k = odGet m k := by
  simp only [updStep]
  split
  · exact odGet_odSet_ne m u.1 _ k (fun he => hne he.symm)
  · split
    · exact odGet_odDel_ne m u.1 k (fun he => hne he.symm)
    · rfl

theorem updStep_nodup (m : SecMap) (u : Str × Str) (h : (m.map Prod.fst).Nodup) :
    ((updStep m u).map Prod.fst).Nodup := by
  simp only [updStep]
  split
  · exact nodup_map_fst_odSet m _ _ h
  · split
    · exact nodup_map_fst_odDel m _ h
    · exact h

theorem foldl_updStep_preserve (us : List (Str × Str)) (m : SecMap) (k : Str)
    (h : ∀ u ∈ us, u.1 ≠ k) :
    odGet (us.foldl updStep m) k = odGet m k := by
  induction us generalizing m with
  | nil => rfl
  | cons u rest ih =>
    rw [List.foldl_cons, ih (updStep m u) (fun x hx => h x (List.mem_cons_of_mem _ hx)),
      updStep_preserve m u k (h u (List.mem_cons_self _ _))]

theorem foldl_updStep_nodup (us : List (Str × Str)) (m : SecMap)
    (h : (m.map Prod.fst).Nodup) : (((us.foldl updStep m)).map Prod.fst).Nodup := by
  induction us generalizing m with
  | nil => exact h
  | cons u rest ih =>
    rw [List.foldl_cons]
    exact ih _ (updStep_nodup m u h)

theorem updStep_set (m : SecMap) (k v : Str) (hne : pyStrip v ≠ []) :
    updStep m (k, v) = odSet m k (pyStrip v) := by
  simp only [updStep]
  rw [if_pos (by simpa [List.isEmpty_iff] using hne)]

theorem updStep_empty_get (m : SecMap) (k v : Str) (hnodup : (m.map Prod.fst).Nodup)
    (he : pyStrip v = []) (ht : k ≠ lit ("type")) :
    odGet (updStep m (k, v)) k = none := by
  simp only [updStep]
  rw [if_neg (by simp [he])]
  split
  · rename_i hcond
    exact odGet_odDel_self m k hnodup
  · rename_i hcond
    rw [Classical.not_and_iff_or_not_not] at hcond
    rcases hcond with hcond | hcond
    · simpa using hcond
    · exact absurd ht (by simpa using hcond)

theorem updStep_empty_type (m : SecMap) (v : Str) (he : pyStrip v = []) :
    updStep m (lit ("type"), v) = m := by
  simp only [updStep]
  rw [if_neg (by simp [he]), if_neg (by simp)]

theorem docLines_eq_specLines : ∀ d : Doc, docLines d = specLines d
  | [] => by simp [docLines, specLines, List.intercalate]
  | [s] => by simp [docLines, specLines, List.intercalate]
  | s :: s' :: rest => by
    have ih := docLines_eq_specLines (s' :: rest)
    show docLines (s :: s' :: rest) = specLines (s :: s' :: rest)
    rw [show docLines (s :: s' :: rest)
        = ('[' :: (s.1 ++ [']'])) :: s.2.map (fun kv => kv.1 ++ ' ' :: '=' :: ' ' :: kv.2)
            ++ [] :: docLines (s' :: rest) from rfl, ih]
    simp [specLines, List.intercalate, List.intersperse]

theorem isEmpty_false_of_ne_nil (l : Str) (h : l ≠ []) : l.isEmpty = false := by
  simpa [List.isEmpty_iff] using h

/-- C1: re-parsing the serialization of a parsed document yields the same
document, for every input text; and for well-formed input — formalized as any
text that is the serialization of a parser-producible (`ValidDoc`) document —
parsing and re-serializing reproduces the text exactly (so in particular
modulo whitespace around `=`).  The second conjunct states
`Parse(Serialize(d)) = d`, from which `Serialize(Parse(text)) = text` for
`text = Serialize(d)` follows by congruence. -/
theorem c1_roundtrip :
    (∀ t : Str,
        read_rclone_sections (some (write_rclone_sections (read_rclone_sections (some t))))
          = read_rclone_sections (some t))
    ∧ (∀ d : Doc, ValidDoc d →
        read_rclone_sections (some (write_rclone_sections d)) = d) :=
  ⟨fun t => parse_write (parseText t) (validDoc_parseText t),
    fun d hd => parse_write d hd⟩

/-- Witness for C1 at a concrete text with junk lines, whitespace around `=`
and a repeated header, and at a concrete valid document. -/
theorem c1_roundtrip_witness :
    read_rclone_sections (some (write_rclone_sections
        (read_rclone_sections (some (lit ("x=1\n[a]\nk =  v\n[a]\nz=2\njunk"))))))
      = read_rclone_sections (some (lit ("x=1\n[a]\nk =  v\n[a]\nz=2\njunk")))
    ∧ (ValidDoc [(lit ("a"), [(lit ("k"), lit ("v"))]), (lit ("b"), [])]
        ∧ read_rclone_sections (some (write_rclone_sections
            [(lit ("a"), [(lit ("k"), lit ("v"))]), (lit ("b"), [])]))
          = [(lit ("a"), [(lit ("k"), lit ("v"))]), (lit ("b"), [])]) :=
  ⟨c1_roundtrip.1 _, by decide, c1_roundtrip.2 _ (by decide)⟩

/-- C3 counterexample: the claim says a repeated `[a]` header coalesces the
keys of both occurrences, so `x` should survive with value `1`; the code
replaces the section map with a fresh empty `OrderedDict` at line 85, so only
the last occurrence's key `y` survives and `x` is gone. -/
theorem c3_counterexample :
    read_rclone_sections (some (lit ("[a]\nx = 1\n[a]\ny = 2")))
      = [(lit ("a"), [(lit ("y"), lit ("2"))])]
    ∧ odGet (read_rclone_sections (some (lit ("[a]\nx = 1\n[a]\ny = 2")))) (lit ("a"))
        = some [(lit ("y"), lit ("2"))]
    ∧ odGet [(lit ("y"), lit ("2"))] (lit ("x")) = none := by
  refine ⟨by decide, by decide, by decide⟩

/-- C3 amended: when a bracketed header repeats, the parser replaces the
existing section's map with a fresh empty one — the section keeps its
position in document order, but the keys of earlier occurrences are
discarded, so the single resulting section holds only the keys parsed after
the last occurrence of the header. -/
theorem c3_amended (d : Doc) (c : Option Str) (line n : Str)
    (h1 : '\n' ∉ line) (h2 : '\r' ∉ line)
    (h : headerName (pyStrip line) = some n)
    (hmem : (odGet d n).isSome = true) :
    parseLine (d, c) line = (odSet d n [], some n)
    ∧ odGet (odSet d n []) n = some []
    ∧ (odSet d n []).map Prod.fst = d.map Prod.fst :=
  ⟨parseLine_header d c line n h1 h2 h, odGet_odSet_self d n [],
    map_fst_odSet_some d n [] hmem⟩

/-- Witness for C3 amended: re-reading the header `[a]` while section `a`
already holds `x = 1` empties the section in place. -/
theorem c3_amended_witness :
    parseLine ([(lit ("a"), [(lit ("x"), lit ("1"))])], none) (lit ("[a]"))
      = (odSet [(lit ("a"), [(lit ("x"), lit ("1"))])] (lit ("a")) [], some (lit ("a")))
    ∧ odGet (odSet [(lit ("a"), [(lit ("x"), lit ("1"))])] (lit ("a")) []) (lit ("a"))
        = some []
    ∧ (odSet [(lit ("a"), [(lit ("x"), lit ("1"))])] (lit ("a")) []).map Prod.fst
        = [(lit ("a"), [(lit ("x"), lit ("1"))])].map Prod.fst :=
  c3_amended [(lit ("a"), [(lit ("x"), lit ("1"))])] none (lit ("[a]")) (lit ("a"))
    (by decide) (by decide) (by decide) (by decide)

/-- C6: the parser is total (it is a Lean function) and never errors: a
missing file yields the empty document; a line that is not a section header
and has no `=` leaves the state unchanged; and with no current section
(before the first header) any non-header line is ignored. -/
theorem c6_lenient_parse :
    read_rclone_sections none = []
    ∧ (∀ (st : Doc × Option Str) (line : Str),
        headerName (pyStrip (rstripRN line)) = none → '=' ∉ rstripRN line →
        parseLine st line = st)
    ∧ (∀ (d : Doc) (line : Str),
        headerName (pyStrip (rstripRN line)) = none →
        parseLine (d, none) line = (d, none)) := by
  refine ⟨rfl, ?_, ?_⟩
  · intro st line hh hne
    obtain ⟨d, c⟩ := st
    cases c with
    | none => simp only [parseLine, hh]
    | some cur => simp only [parseLine, hh, if_neg hne]
  · intro d line hh
    simp only [parseLine, hh]

/-- Witness for C6: a junk line mid-section, and a `k = v` line before any
header, are both ignored. -/
theorem c6_lenient_parse_witness :
    read_rclone_sections none = []
    ∧ parseLine ([(lit ("a"), [])], some (lit ("a"))) (lit ("junk line"))
        = ([(lit ("a"), [])], some (lit ("a")))
    ∧ parseLine ([], none) (lit ("x = 1")) = ([], none) :=
  ⟨c6_lenient_parse.1,
    c6_lenient_parse.2.1 _ _ (by decide) (by decide),
    c6_lenient_parse.2.2 _ _ (by decide)⟩

/-- C7: for every parser-producible document, the serialized text splits into
exactly the line sequence demanded by the spec (`specLines`): each section in
document order as `[name]` followed by its `key = value` lines in insertion
order, one blank line between consecutive sections, and no blank line after
the last section. -/
theorem c7_serializer_shape (d : Doc) (hd : ValidDoc d) :
    pyLines (write_rclone_sections d) = specLines d := by
  rw [pyLines_write d hd, docLines_eq_specLines d]

/-- Witness for C7 on a two-section document. -/
theorem c7_serializer_shape_witness :
    ValidDoc [(lit ("a"), [(lit ("k"), lit ("v")), (lit ("k2"), lit ("v2"))]),
        (lit ("b"), [(lit ("x"), lit ("y"))])]
    ∧ pyLines (write_rclone_sections
        [(lit ("a"), [(lit ("k"), lit ("v")), (lit ("k2"), lit ("v2"))]),
          (lit ("b"), [(lit ("x"), lit ("y"))])])
      = specLines [(lit ("a"), [(lit ("k"), lit ("v")), (lit ("k2"), lit ("v2"))]),
          (lit ("b"), [(lit ("x"), lit ("y"))])] :=
  ⟨by decide, c7_serializer_shape _ (by decide)⟩

/-- C8: a line containing `=` processed while a section is active is split at
the first `=`; key and value are both stripped and stored into the current
section, and re-storing an existing key overwrites its value (last occurrence
wins). -/
theorem c8_kv_split (d : Doc) (cur : Str) (line before after : Str)
    (hsplit : line = before ++ '=' :: after) (hfirst : '=' ∉ before)
    (hclean : rstripRN line = line)
    (hh : headerName (pyStrip line) = none) :
    parseLine (d, some cur) line
      = (odSetSec d cur (pyStrip before) (pyStrip after), some cur)
    ∧ (∀ (m : SecMap) (k v v' : Str), odGet (odSet (odSet m k v) k v') k = some v') := by
  constructor
  · have hmem : '=' ∈ line := by rw [hsplit]; simp
    have hpart : pyPartitionEq line = (before, after) := by
      rw [hsplit]
      exact pyPartitionEq_append _ _ hfirst
    simp only [parseLine, hclean, hh, if_pos hmem, hpart]
  · intro m k v v'
    exact odGet_odSet_self (odSet m k v) k v'

/-- Witness for C8 on the line `x = a=b` (value keeps its later `=`), plus a
concrete last-wins overwrite. -/
theorem c8_kv_split_witness :
    parseLine ([(lit ("a"), [])], some (lit ("a"))) (lit ("x = a=b"))
      = (odSetSec [(lit ("a"), [])] (lit ("a")) (pyStrip (lit ("x ")))
          (pyStrip (lit (" a=b"))), some (lit ("a")))
    ∧ odGet (odSet (odSet [] (lit ("k")) (lit ("v1"))) (lit ("k")) (lit ("v2"))) (lit ("k"))
        = some (lit ("v2")) := by
  have h := c8_kv_split [(lit ("a"), [])] (lit ("a")) (lit ("x = a=b")) (lit ("x "))
    (lit (" a=b")) (by decide) (by decide) (by decide) (by decide)
  exact ⟨h.1, h.2 [] (lit ("k")) (lit ("v1")) (lit ("v2"))⟩

/-- C2 counterexample: the claim requires the `pass` value to be replaced by
`[REDACTED]` in every returned configuration document, but the whole-file
view `GET /api/rclone-config` rewrites only `token` and `client_secret`
lines; on this file it returns the content byte-identical, with the secret
`hunter2` still present as a substring. -/
theorem c2_counterexample :
    api_get_rclone_config (some (lit ("[r]\npass = hunter2")))
      = lit ("[r]\npass = hunter2")
    ∧ (∃ a b : Str,
        api_get_rclone_config (some (lit ("[r]\npass = hunter2")))
          = a ++ lit ("hunter2") ++ b) := by
  refine ⟨by decide, ⟨lit ("[r]\npass = "), [], by decide⟩⟩

/-- C2 amended: the single-section view `GET /api/remotes/<name>/config`
replaces the values of all seven secret keys by `[REDACTED]` and leaves every
non-secret key's value unchanged; the whole-file view `GET /api/rclone-config`
rewrites only text matching `token\s*=` or `client_secret\s*=` — text with no
such match (in particular lines for the other five secret keys) is returned
byte-unchanged — and it does replace the remainder of `token = v` and
`client_secret = v` lines by `[REDACTED]`.  (A secret value can still appear
in the output when some other field's text contains it.) -/
theorem c2_redaction_amended :
    (∀ (conf : Option Str) (name : Str) (m : SecMap),
        odGet (read_rclone_sections conf) name = some m →
        api_get_remote_config conf name = some (redactSection m)
        ∧ ∀ k v : Str, (k, v) ∈ m →
            odGet (redactSection m) k
              = some (if k ∈ secretKeys then lit ("[REDACTED]") else v))
    ∧ (∀ t : Str, noKwMatch (lit ("token")) t → noKwMatch (lit ("client_secret")) t →
        api_get_rclone_config (some t) = t)
    ∧ (∀ v : Str, pyStrip v = v → '\n' ∉ v →
        api_get_rclone_config (some (lit ("token") ++ ' ' :: '=' :: ' ' :: v))
          = lit ("token") ++ ' ' :: '=' :: ' ' :: lit ("[REDACTED]"))
    ∧ (∀ v : Str, pyStrip v = v → '\n' ∉ v →
        noKwMatch (lit ("token")) (lit ("client_secret") ++ ' ' :: '=' :: ' ' :: v) →
        api_get_rclone_config (some (lit ("client_secret") ++ ' ' :: '=' :: ' ' :: v))
          = lit ("client_secret") ++ ' ' :: '=' :: ' ' :: lit ("[REDACTED]")) := by
  refine ⟨?_, ?_, ?_, ?_⟩
  · intro conf name m hm
    constructor
    · simp only [api_get_remote_config, hm]
    · intro k v hkv
      have hd := validDoc_read conf
      have hmem : (name, m) ∈ read_rclone_sections conf := odGet_mem _ _ _ hm
      have hsec : ValidSec m := (hd.2 (name, m) hmem).2
      rw [odGet_redactSection, odGet_of_mem_nodup m k v hkv hsec.1]
      rfl
  · intro t h1 h2
    show reSubKw (lit ("client_secret")) (reSubKw (lit ("token")) t) = t
    rw [reSubKw_id _ _ h1, reSubKw_id _ _ h2]
  · intro v hs hn
    show reSubKw (lit ("client_secret"))
        (reSubKw (lit ("token")) (lit ("token") ++ ' ' :: '=' :: ' ' :: v)) = _
    rw [reSubKw_kw_line (lit ("token")) v (by decide) hs hn]
    decide
  · intro v hs hn htok
    show reSubKw (lit ("client_secret"))
        (reSubKw (lit ("token")) (lit ("client_secret") ++ ' ' :: '=' :: ' ' :: v)) = _
    rw [reSubKw_id _ _ htok,
      reSubKw_kw_line (lit ("client_secret")) v (by decide) hs hn]

/-- Witness for C2 amended: a section with a `pass` secret, an unmatched
file, a `token` line and a `client_secret` line. -/
theorem c2_redaction_amended_witness :
    api_get_remote_config (some (lit ("[r]\ntype = s3\npass = hunter2"))) (lit ("r"))
      = some (redactSection [(lit ("type"), lit ("s3")), (lit ("pass"), lit ("hunter2"))])
    ∧ odGet (redactSection [(lit ("type"), lit ("s3")), (lit ("pass"), lit ("hunter2"))])
        (lit ("pass")) = some (lit ("[REDACTED]"))
    ∧ api_get_rclone_config (some (lit ("[r]\nx = 1"))) = lit ("[r]\nx = 1")
    ∧ api_get_rclone_config (some (lit ("token") ++ ' ' :: '=' :: ' ' :: lit ("abc")))
        = lit ("token") ++ ' ' :: '=' :: ' ' :: lit ("[REDACTED]")
    ∧ api_get_rclone_config (some (lit ("client_secret") ++ ' ' :: '=' :: ' ' :: lit ("xyz")))
        = lit ("client_secret") ++ ' ' :: '=' :: ' ' :: lit ("[REDACTED]") := by
  have ha := c2_redaction_amended.1 (some (lit ("[r]\ntype = s3\npass = hunter2"))) (lit ("r"))
    [(lit ("type"), lit ("s3")), (lit ("pass"), lit ("hunter2"))] (by decide)
  have hb := ha.2 (lit ("pass")) (lit ("hunter2")) (by decide)
  refine ⟨ha.1, ?_, c2_redaction_amended.2.1 _ (by decide) (by decide),
    c2_redaction_amended.2.2.1 (lit ("abc")) (by decide) (by decide),
    c2_redaction_amended.2.2.2 (lit ("xyz")) (by decide) (by decide) (by decide)⟩
  rw [hb]
  decide

/-- C4: creating a remote whose (stripped) name is already a section of the
parsed configuration returns the Conflict error and performs no write: the
stored file state is returned unchanged.  The request must pass the earlier
validation steps (nonempty name and provider, allowed name characters),
otherwise those errors fire first. -/
theorem c4_create_conflict (oracle : Except Unit (Str × Str)) (conf : Option Str)
    (req : Str → Option Str)
    (hname : pyStrip (rget req (lit ("name")) []) ≠ [])
    (hprov : pyStrip (rget req (lit ("provider")) []) ≠ [])
    (hok : nameOk (pyStrip (rget req (lit ("name")) [])) = true)
    (hdup : (odGet (read_rclone_sections conf)
        (pyStrip (rget req (lit ("name")) []))).isSome = true) :
    api_create_remote oracle conf req = (conf, CreateResp.conflict) := by
  simp only [api_create_remote, isEmpty_false_of_ne_nil _ hname,
    isEmpty_false_of_ne_nil _ hprov, hok, hdup, Bool.or_self, Bool.not_true,
    Bool.false_eq_true, if_false, if_true]

/-- Witness for C4: creating `r1` when `[r1]` already exists. -/
theorem c4_create_conflict_witness :
    api_create_remote (Except.error ()) (some (lit ("[r1]\ntype = s3")))
        (fun key => if key = lit ("name") then some (lit ("r1"))
          else if key = lit ("provider") then some (lit ("s3")) else none)
      = (some (lit ("[r1]\ntype = s3")), CreateResp.conflict) :=
  c4_create_conflict (Except.error ()) (some (lit ("[r1]\ntype = s3")))
    (fun key => if key = lit ("name") then some (lit ("r1"))
      else if key = lit ("provider") then some (lit ("s3")) else none)
    (by decide) (by decide) (by decide) (by decide)

/-- C5: updating an existing section applies the per-field policy: a field
whose stripped value is non-empty is set or overwritten; a field with an
empty stripped value is removed if present and not the `type` key; the `type`
key is never removed by an empty value.  (Keys of the supplied `config`
object are distinct, as in a JSON object.) -/
theorem c5_update_policy (conf : Option Str) (name : Str) (updates : List (Str × Str))
    (m : SecMap) (k v : Str)
    (hm : odGet (read_rclone_sections conf) name = some m)
    (hu : (updates.map Prod.fst).Nodup)
    (hkv : (k, v) ∈ updates) :
    (api_update_remote conf name updates).2 = UpdateResp.updated
    ∧ (api_update_remote conf name updates).1
        = some (write_rclone_sections
            (odMapAt (read_rclone_sections conf) name (fun m0 => updates.foldl updStep m0)))
    ∧ odGet (odMapAt (read_rclone_sections conf) name
          (fun m0 => updates.foldl updStep m0)) name
        = some (updates.foldl updStep m)
    ∧ (pyStrip v ≠ [] → odGet (updates.foldl updStep m) k = some (pyStrip v))
    ∧ (pyStrip v = [] → k ≠ lit ("type") → odGet (updates.foldl updStep m) k = none)
    ∧ (pyStrip v = [] → k = lit ("type") →
        odGet (updates.foldl updStep m) k = odGet m k) := by
  have hd := validDoc_read conf
  have hmnodup : (m.map Prod.fst).Nodup :=
    ((hd.2 (name, m) (odGet_mem _ _ _ hm)).2).1
  have hnotnone : (odGet (read_rclone_sections conf) name).isNone = false := by
    simp [hm]
  obtain ⟨pre, post, hupd⟩ := List.append_of_mem hkv
  subst hupd
  have hkeys := hu
  rw [List.map_append, List.map_cons, List.nodup_append] at hkeys
  have hkpost : k ∉ post.map Prod.fst := by
    have := hkeys.2.1
    rw [List.nodup_cons] at this
    exact this.1
  have hkpre : k ∉ pre.map Prod.fst := by
    intro hmem
    exact hkeys.2.2 hmem (List.mem_cons_self _ _)
  have hpostne : ∀ u ∈ post, u.1 ≠ k := by
    intro u hu' he
    exact hkpost (he ▸ List.mem_map_of_mem Prod.fst hu')
  have hprene : ∀ u ∈ pre, u.1 ≠ k := by
    intro u hu' he
    exact hkpre (he ▸ List.mem_map_of_mem Prod.fst hu')
  have hfold : (pre ++ (k, v) :: post).foldl updStep m
      = post.foldl updStep (updStep (pre.foldl updStep m) (k, v)) := by
    rw [List.foldl_append, List.foldl_cons]
  have hget : odGet ((pre ++ (k, v) :: post).foldl updStep m) k
      = odGet (updStep (pre.foldl updStep m) (k, v)) k := by
    rw [hfold]
    exact foldl_updStep_preserve post _ k hpostne
  have hm1nodup := foldl_updStep_nodup pre m hmnodup
  refine ⟨?_, ?_, ?_, ?_, ?_, ?_⟩
  · simp only [api_update_remote, hnotnone, Bool.false_eq_true, if_false]
  · simp only [api_update_remote, hnotnone, Bool.false_eq_true, if_false]
  · rw [odGet_odMapAt_self, hm]
    rfl
  · intro hv
    rw [hget, updStep_set _ k v hv, odGet_odSet_self]
  · intro hv ht
    rw [hget]
    exact updStep_empty_get _ k v hm1nodup hv ht
  · intro hv ht
    subst ht
    rw [hget, updStep_empty_type _ v hv]
    exact foldl_updStep_preserve pre m _ hprene

/-- Witness for C5: deleting `acl` by an empty value on a concrete file;
after the update the stored file no longer contains the key, and `type`
survives. -/
theorem c5_update_policy_witness :
    (api_update_remote (some (lit ("[a]\ntype = s3\nacl = x"))) (lit ("a"))
        [(lit ("acl"), lit (""))]).1
      = some (lit ("[a]\ntype = s3\n"))
    ∧ (api_update_remote (some (lit ("[a]\ntype = s3\nacl = x"))) (lit ("a"))
        [(lit ("acl"), lit (""))]).2 = UpdateResp.updated := by
  have h := c5_update_policy (some (lit ("[a]\ntype = s3\nacl = x"))) (lit ("a"))
    [(lit ("acl"), lit (""))] [(lit ("type"), lit ("s3")), (lit ("acl"), lit ("x"))]
    (lit ("acl")) (lit ("")) (by decide) (by decide) (by decide)
  refine ⟨?_, h.1⟩
  rw [h.2.1]
  decide

theorem digitChar_mod_isDigit (n : Nat) : (Nat.digitChar (n % 10)).isDigit = true := by
  have h : n % 10 < 10 := Nat.mod_lt _ (by decide)
  revert h
  generalize n % 10 = m
  intro h
  interval_cases m <;> decide

theorem mem_pad2_isDigit (n : Nat) (ch : Char) (h : ch ∈ pad2 n) : ch.isDigit = true := by
  simp only [pad2, List.mem_cons, List.mem_singleton, List.not_mem_nil, or_false] at h
  rcases h with h | h <;> rw [h] <;> exact digitChar_mod_isDigit _

theorem mem_pad4_isDigit (n : Nat) (ch : Char) (h : ch ∈ pad4 n) : ch.isDigit = true := by
  simp only [pad4, List.mem_cons, List.mem_singleton, List.not_mem_nil, or_false] at h
  rcases h with h | h | h | h <;> rw [h] <;> exact digitChar_mod_isDigit _

/-- C9: replacing the whole configuration (POST /api/rclone-config) with
non-blank content when the file exists first records a backup file holding
the complete previous content, named by suffixing the config path with
`.bak.` and a `YYYYMMDD_HHMMSS` timestamp (eight digits, an underscore, six
digits); the new content is then stored, and no existing backup is pruned
(the backup list only grows by the one new entry). -/
theorem c9_upload_backup (st : UploadState) (now : DateTime6) (content old : Str)
    (hne : pyStrip content ≠ []) (hold : st.conf = some old) :
    (api_upload_rclone_config st now content).2 = UploadResp.saved
    ∧ (api_upload_rclone_config st now content).1.conf = some content
    ∧ (api_upload_rclone_config st now content).1.backups
        = st.backups ++ [(bakName (fmtTs now), old)]
    ∧ bakName (fmtTs now) = RCLONE_CONF ++ lit (".bak.") ++ fmtTs now
    ∧ (∃ a b : Str, fmtTs now = a ++ '_' :: b ∧ a.length = 8 ∧ b.length = 6
        ∧ (∀ ch ∈ a, ch.isDigit = true) ∧ (∀ ch ∈ b, ch.isDigit = true)) := by
  have hApi : api_upload_rclone_config st now content
      = ({ conf := some content,
            backups := st.backups ++ [(bakName (fmtTs now), old)] }, UploadResp.saved) := by
    simp only [api_upload_rclone_config, isEmpty_false_of_ne_nil _ hne, hold,
      Bool.false_eq_true, if_false]
  refine ⟨by rw [hApi], by rw [hApi], by rw [hApi], rfl, ?_⟩
  refine ⟨pad4 now.y ++ pad2 now.mo ++ pad2 now.d,
    pad2 now.h ++ pad2 now.mi ++ pad2 now.s, ?_, ?_, ?_, ?_, ?_⟩
  · simp [fmtTs]
  · simp [pad4, pad2]
  · simp [pad2]
  · intro ch hch
    rcases List.mem_append.mp hch with hch | hch
    rcases List.mem_append.mp hch with hch | hch
    · exact mem_pad4_isDigit _ _ hch
    · exact mem_pad2_isDigit _ _ hch
    · exact mem_pad2_isDigit _ _ hch
  · intro ch hch
    rcases List.mem_append.mp hch with hch | hch
    rcases List.mem_append.mp hch with hch | hch
    · exact mem_pad2_isDigit _ _ hch
    · exact mem_pad2_isDigit _ _ hch
    · exact mem_pad2_isDigit _ _ hch

/-- Witness for C9 at a concrete state, clock and content. -/
theorem c9_upload_backup_witness :
    (api_upload_rclone_config ⟨some (lit ("old content")), []⟩
        ⟨2026, 10, 12, 3, 4, 5⟩ (lit ("new"))).1.backups
      = [(bakName (lit ("20261012_030405")), lit ("old content"))]
    ∧ (api_upload_rclone_config ⟨some (lit ("old content")), []⟩
        ⟨2026, 10, 12, 3, 4, 5⟩ (lit ("new"))).1.conf = some (lit ("new"))
    ∧ (api_upload_rclone_config ⟨some (lit ("old content")), []⟩
        ⟨2026, 10, 12, 3, 4, 5⟩ (lit ("new"))).2 = UploadResp.saved := by
  have h := c9_upload_backup ⟨some (lit ("old content")), []⟩ ⟨2026, 10, 12, 3, 4, 5⟩
    (lit ("new")) (lit ("old content")) (by decide) rfl
  refine ⟨?_, h.2.1, h.1⟩
  rw [h.2.2.1]
  decide

/-- C10: remote creation accepts any non-empty provider string.  The literal
`provider_map` sends `gdrive` to rclone type `drive`; a provider key absent
from the map falls back to itself (`provider_map.get(provider, provider)`),
and a creation request with such a provider succeeds, writing the provider
string verbatim as the new section's `type` value. -/
theorem c10_provider_passthrough :
    odGet provider_map (lit ("gdrive")) = some (lit ("drive"))
    ∧ (∀ p : Str, p ∉ provider_map.map Prod.fst → pmGet p = p)
    ∧ (∀ (oracle : Except Unit (Str × Str)) (conf : Option Str) (req : Str → Option Str),
        pyStrip (rget req (lit ("name")) []) ≠ [] →
        nameOk (pyStrip (rget req (lit ("name")) [])) = true →
        pyStrip (rget req (lit ("provider")) []) ≠ [] →
        pyStrip (rget req (lit ("provider")) []) ∉ provider_map.map Prod.fst →
        odGet (read_rclone_sections conf) (pyStrip (rget req (lit ("name")) [])) = none →
        (api_create_remote oracle conf req).2
            = CreateResp.created (pyStrip (rget req (lit ("provider")) []))
        ∧ ∃ params : SecMap,
            (api_create_remote oracle conf req).1
              = some (write_rclone_sections
                  (read_rclone_sections conf
                    ++ [(pyStrip (rget req (lit ("name")) []), params)]))
            ∧ odGet params (lit ("type"))
                = some (pyStrip (rget req (lit ("provider")) []))) := by
  refine ⟨by decide, ?_, ?_⟩
  · intro p hp
    simp [pmGet, (odGet_none_iff provider_map p).mpr hp]
  · intro oracle conf req hname hok hprov hunk hfresh
    have hneq : ∀ q : Str, q ∈ provider_map.map Prod.fst →
        pyStrip (rget req (lit ("provider")) []) ≠ q :=
      fun q hq he => hunk (he ▸ hq)
    have h1 := hneq (lit ("onedrive")) (by decide)
    have h2 := hneq (lit ("gdrive")) (by decide)
    have h3 := hneq (lit ("s3")) (by decide)
    have h4 := hneq (lit ("sftp")) (by decide)
    have h5 := hneq (lit ("webdav")) (by decide)
    have hpm : pmGet (pyStrip (rget req (lit ("provider")) []))
        = pyStrip (rget req (lit ("provider")) []) := by
      simp [pmGet, (odGet_none_iff provider_map _).mpr hunk]
    have hissome : (odGet (read_rclone_sections conf)
        (pyStrip (rget req (lit ("name")) []))).isSome = false := by
      simp [hfresh]
    have hApi : api_create_remote oracle conf req
        = (some (write_rclone_sections (odSet (read_rclone_sections conf)
              (pyStrip (rget req (lit ("name")) []))
              (if (pyStrip (rget req (lit ("token")) [])).isEmpty
                then odSet ([] : SecMap) (lit ("type")) (pmGet (pyStrip (rget req (lit ("provider")) [])))
                else odSet (odSet ([] : SecMap) (lit ("type"))
                    (pmGet (pyStrip (rget req (lit ("provider")) []))))
                  (lit ("token")) (pyStrip (rget req (lit ("token")) []))))),
            CreateResp.created (pmGet (pyStrip (rget req (lit ("provider")) [])))) := by
      simp only [api_create_remote, isEmpty_false_of_ne_nil _ hname,
        isEmpty_false_of_ne_nil _ hprov, hok, Bool.or_self, Bool.not_true,
        Bool.false_eq_true, if_false, hissome, if_neg h1, if_neg h2, if_neg h3,
        if_neg h4, if_neg h5]
    constructor
    · rw [hApi, hpm]
    · refine ⟨(if (pyStrip (rget req (lit ("token")) [])).isEmpty
          then odSet ([] : SecMap) (lit ("type")) (pmGet (pyStrip (rget req (lit ("provider")) [])))
          else odSet (odSet ([] : SecMap) (lit ("type"))
              (pmGet (pyStrip (rget req (lit ("provider")) []))))
            (lit ("token")) (pyStrip (rget req (lit ("token")) []))), ?_, ?_⟩
      · rw [hApi, odSet_of_get_none _ _ _ hfresh]
      · rw [hpm]
        split
        · exact odGet_odSet_self [] (lit ("type")) _
        · rw [odGet_odSet_ne _ _ _ _ (by decide)]
          exact odGet_odSet_self [] (lit ("type")) _

/-- Witness for C10: creating a remote with the unknown provider `mycloud`
writes `type = mycloud` verbatim. -/
theorem c10_provider_passthrough_witness :
    odGet provider_map (lit ("gdrive")) = some (lit ("drive"))
    ∧ pmGet (lit ("mycloud")) = lit ("mycloud")
    ∧ (api_create_remote (Except.error ()) none
        (fun key => if key = lit ("name") then some (lit ("r1"))
          else if key = lit ("provider") then some (lit ("mycloud")) else none)).2
        = CreateResp.created (lit ("mycloud"))
    ∧ (api_create_remote (Except.error ()) none
        (fun key => if key = lit ("name") then some (lit ("r1"))
          else if key = lit ("provider") then some (lit ("mycloud")) else none)).1
        = some (lit ("[r1]\ntype = mycloud\n")) := by
  have h := c10_provider_passthrough.2.2 (Except.error ()) none
    (fun key => if key = lit ("name") then some (lit ("r1"))
      else if key = lit ("provider") then some (lit ("mycloud")) else none)
    (by decide) (by decide) (by decide) (by decide) (by decide)
  exact ⟨c10_provider_passthrough.1,
    c10_provider_passthrough.2.1 (lit ("mycloud")) (by decide), h.1, by decide⟩

